import Mathlib

/- Shallow embedding of the retrieval-fusion core of the knowledge-graph
   repository (backend/retrieval and backend/routes).  Python floats are
   modelled as exact rationals, Python insertion-ordered dicts as
   association lists, and duck-typed optional attributes as Option
   fields. -/

/-! ## Fusion engine data model (backend/retrieval/hybrid_fusion.py) -/

/-- A retrieval result as consumed by the fusion engine.  Fields are
Option-valued to mirror duck-typed attribute access with a default:
getattr(result, attr, default).  none models a missing (or None valued)
attribute. -/
structure MethodResult where
  chunk_id : Option String := none
  doc_id : Option String := none
  score : Option ℚ := none
  rank : Option ℕ := none
  text : Option String := none
  language : Option String := none
deriving DecidableEq, Repr

/-- Fused retrieval result, mirroring the FusedResult dataclass.  The two
per-method maps are insertion-ordered dicts, modelled as association
lists. -/
structure FusedResult where
  doc_id : String
  chunk_id : String
  rrf_score : ℚ
  rank : ℕ
  text : String
  language : String
  method_scores : List (String × ℚ)
  method_ranks : List (String × ℕ)
deriving DecidableEq, Repr

/-- Python string truthiness: None and the empty string are falsy. -/
def truthyStr : Option String → Option String
  | none => none
  | some s => if s = "" then none else some s

/-- The identifier the fusion engine keys on:
getattr(result, chunk_id, None) or getattr(result, doc_id, None),
with the result skipped when that expression is falsy. -/
def effId (r : MethodResult) : Option String :=
  match truthyStr r.chunk_id with
  | some s => some s
  | none => truthyStr r.doc_id

/-! ### Insertion-ordered dictionaries as association lists -/

/-- Lookup in an insertion-ordered dict. -/
def aget {β : Type} : List (String × β) → String → Option β
  | [], _ => none
  | (k, v) :: rest, key => if k = key then some v else aget rest key

/-- Assignment d[key] = v: overwrite in place if present, else append. -/
def aset {β : Type} : List (String × β) → String → β → List (String × β)
  | [], key, v => [(key, v)]
  | (k, w) :: rest, key, v =>
      if k = key then (k, v) :: rest else (k, w) :: aset rest key v

/-- defaultdict(float) accumulation d[key] += x (missing keys start at 0
and are appended in insertion order). -/
def addScore : List (String × ℚ) → String → ℚ → List (String × ℚ)
  | [], key, x => [(key, x)]
  | (k, v) :: rest, key, x =>
      if k = key then (k, v + x) :: rest else (k, v) :: addScore rest key x

/-- Score lookup with the defaultdict default 0. -/
def sc (l : List (String × ℚ)) (key : String) : ℚ :=
  (aget l key).getD 0

/-- defaultdict(dict) nested assignment d[key][m] = v. -/
def setNested {β : Type} (l : List (String × List (String × β))) (key m : String)
    (v : β) : List (String × List (String × β)) :=
  match aget l key with
  | some inner => aset l key (aset inner m v)
  | none => l ++ [(key, [(m, v)])]

/-- Nested lookup d[key][m] over a defaultdict(dict). -/
def aget2 {β : Type} (l : List (String × List (String × β))) (key m : String) :
    Option β :=
  (aget l key).bind (fun inner => aget inner m)

/-- Metadata the fusion engine records the first time it sees a chunk id. -/
structure DocInfo where
  text : String
  language : String
  doc_id : String
  chunk_id : String
deriving DecidableEq, Repr

/-- doc_info[key] = v only when key is absent (first-seen wins). -/
def setInfo (l : List (String × DocInfo)) (key : String) (v : DocInfo) :
    List (String × DocInfo) :=
  if (aget l key).isSome then l else l ++ [(key, v)]

/-- The mutable accumulators of reciprocal_rank_fusion. -/
structure FuseState where
  rrf_scores : List (String × ℚ)
  method_ranks : List (String × List (String × ℕ))
  method_scores : List (String × List (String × ℚ))
  doc_info : List (String × DocInfo)
deriving Repr

/-- Processing of a single result at a given 1-based enumeration rank:
skip when the effective id is falsy, otherwise accumulate 1/(k+rank),
overwrite the per-method rank and score, and record first-seen doc
metadata. -/
def processResult (k : ℚ) (method : String) (st : FuseState) (rank : ℕ)
    (r : MethodResult) : FuseState :=
  match effId r with
  | none => st
  | some id =>
    { rrf_scores := addScore st.rrf_scores id (1 / (k + (rank : ℚ)))
      method_ranks := setNested st.method_ranks id method rank
      method_scores := setNested st.method_scores id method (r.score.getD 0)
      doc_info := setInfo st.doc_info id
        { text := r.text.getD ""
          language := r.language.getD "unknown"
          doc_id := r.doc_id.getD id
          chunk_id := id } }

/-- for rank, result in enumerate(results, start=1). -/
def processList (k : ℚ) (method : String) : FuseState → ℕ → List MethodResult → FuseState
  | st, _, [] => st
  | st, rank, r :: rs => processList k method (processResult k method st rank r) (rank + 1) rs

/-- for method_name, results in results_dict.items(). -/
def processAll (k : ℚ) : FuseState → List (String × List MethodResult) → FuseState
  | st, [] => st
  | st, (m, rs) :: rest => processAll k (processList k m st 1 rs) rest

/-- The empty accumulator state. -/
def initState : FuseState := ⟨[], [], [], []⟩

/-- Insert one element into a descending-sorted list, after all entries
with a greater-or-equal key. -/
def insertDescBy {α : Type} (key : α → ℚ) (x : α) : List α → List α
  | [] => [x]
  | y :: ys => if key y < key x then x :: y :: ys else y :: insertDescBy key x ys

/-- Stable descending sort by key, reproducing the stable sort of
sorted(..., key=..., reverse=True): elements with equal keys keep their
original relative order. -/
def sortDescBy {α : Type} (key : α → ℚ) (l : List α) : List α :=
  l.foldl (fun acc x => insertDescBy key x acc) []

/-- Stable descending sort of the insertion-ordered score dict by score. -/
def sortDesc (l : List (String × ℚ)) : List (String × ℚ) :=
  sortDescBy Prod.snd l

/-- Default metadata; the loop never actually hits this default because
every key of rrf_scores is also a key of doc_info. -/
def defaultInfo (id : String) : DocInfo := ⟨"", "unknown", id, id⟩

/-- The FusedResult built for one sorted (doc_id, rrf_score) pair at a
given final rank. -/
def fusedAt (st : FuseState) (p : String × ℚ) (rank : ℕ) : FusedResult :=
  let info := (aget st.doc_info p.1).getD (defaultInfo p.1)
  { doc_id := info.doc_id
    chunk_id := info.chunk_id
    rrf_score := p.2
    rank := rank
    text := info.text
    language := info.language
    method_scores := (aget st.method_scores p.1).getD []
    method_ranks := (aget st.method_ranks p.1).getD [] }

/-- for final_rank, (doc_id, rrf_score) in enumerate(sorted_results, start=1). -/
def buildFused (st : FuseState) : List (String × ℚ) → ℕ → List FusedResult
  | [], _ => []
  | p :: rest, rank => fusedAt st p rank :: buildFused st rest (rank + 1)

/-- Shallow embedding of reciprocal_rank_fusion from
backend/retrieval/hybrid_fusion.py: accumulate 1/(k+rank) per enumerated
result, sort by accumulated score descending (stable), truncate to top_k
and renumber ranks from 1. -/
def reciprocal_rank_fusion (results_dict : List (String × List MethodResult))
    (k : ℚ) (top_k : ℕ) : List FusedResult :=
  let st := processAll k initState results_dict
  let sorted_results := (sortDesc st.rrf_scores).take top_k
  buildFused st sorted_results 1

/-! ### Specification-side descriptions of the fusion accumulators -/

/-- Contribution of one result list to the accumulated score of a chunk
id, starting at a given enumeration rank: every occurrence of the id
adds 1/(k+rank). -/
def contrib (k : ℚ) : List MethodResult → ℕ → String → ℚ
  | [], _, _ => 0
  | r :: rs, rank, id =>
      (if effId r = some id then 1 / (k + (rank : ℚ)) else 0) + contrib k rs (rank + 1) id

/-- Total accumulated score of a chunk id over all method lists. -/
def totalContrib (k : ℚ) : List (String × List MethodResult) → String → ℚ
  | [], _ => 0
  | (_, rs) :: rest, id => contrib k rs 1 id + totalContrib k rest id

/-- The 1-based rank of the first occurrence of a chunk id in a result
list (none when the id does not occur). -/
def posRank (id : String) : List MethodResult → ℕ → Option ℕ
  | [], _ => none
  | r :: rs, rank => if effId r = some id then some rank else posRank id rs (rank + 1)

/-- The RRF sum the specification describes: over every method whose
list contains the id, one term 1/(k + rank of the id in that list). -/
def specSum (k : ℚ) (rd : List (String × List MethodResult)) (id : String) : ℚ :=
  (rd.map (fun p =>
    match posRank id p.2 1 with
    | some rank => 1 / (k + (rank : ℚ))
    | none => 0)).sum

/-- The enumeration rank of the last occurrence of a chunk id in one
result list (dict assignment overwrites, so the last write wins). -/
def lastOcc (id : String) : List MethodResult → ℕ → Option ℕ
  | [], _ => none
  | r :: rs, rank =>
      match lastOcc id rs (rank + 1) with
      | some j => some j
      | none => if effId r = some id then some rank else none

/-- The score attribute of the last occurrence of a chunk id in one
result list. -/
def lastScore (id : String) : List MethodResult → Option ℚ
  | [] => none
  | r :: rs =>
      match lastScore id rs with
      | some x => some x
      | none => if effId r = some id then some (r.score.getD 0) else none

/-- The per-method rank the fusion engine reports for a chunk id: the
last occurrence in the last list carrying that method name. -/
def methodLast (id m : String) : List (String × List MethodResult) → Option ℕ
  | [] => none
  | (m2, l) :: rest =>
      (methodLast id m rest).or (if m2 = m then lastOcc id l 1 else none)

/-- The per-method score the fusion engine reports for a chunk id. -/
def methodLastScore (id m : String) : List (String × List MethodResult) → Option ℚ
  | [] => none
  | (m2, l) :: rest =>
      (methodLastScore id m rest).or (if m2 = m then lastScore id l else none)

/-- All effective ids of a fusion input in iteration order. -/
def seenIds (rd : List (String × List MethodResult)) : List String :=
  rd.flatMap (fun p => p.2.filterMap effId)

/-- Deduplication keeping the first occurrence, given already-seen ids. -/
def dedupFirstAux (seen : List String) : List String → List String
  | [] => []
  | x :: xs => if x ∈ seen then dedupFirstAux seen xs else x :: dedupFirstAux (x :: seen) xs

/-- Distinct chunk ids of a fusion input in first-seen order. -/
def firstSeenIds (rd : List (String × List MethodResult)) : List String :=
  dedupFirstAux [] (seenIds rd)

/-- Invariant of the doc_info accumulator: the stored metadata of a key
records that key as its chunk id. -/
def InfoInv (st : FuseState) : Prop :=
  ∀ id info, aget st.doc_info id = some info → info.chunk_id = id

/-- Replace every result's stored rank attribute (used to state that
fusion never reads it). -/
def setRankAll (f : MethodResult → Option ℕ)
    (rd : List (String × List MethodResult)) : List (String × List MethodResult) :=
  rd.map (fun p => (p.1, p.2.map (fun r => { r with rank := f r })))

/-! ## BM25 retriever (backend/retrieval/bm25_retriever.py)

The BM25Okapi scoring model and the NLTK tokenizer are third-party
library calls; the search wrapper is embedded with the tokenizer and the
per-document score vector as parameters. -/

/-- An indexed document: a dict with keys id, text and an optional
language (defaulting to en on access). -/
structure Doc where
  id : String
  text : String
  language : Option String
deriving DecidableEq, Repr

/-- BM25 search result with metadata, mirroring the BM25Result
dataclass. -/
structure BM25Result where
  doc_id : String
  score : ℚ
  rank : ℕ
  text : String
  language : String
deriving DecidableEq, Repr

/-- The state of a BM25Retriever: fixed parameters, the indexed
documents, and the fitted model (none before indexing). -/
structure BM25Retriever where
  k1 : ℚ
  b : ℚ
  documents : List Doc
  bm25 : Option Unit
deriving DecidableEq, Repr

/-- A freshly constructed retriever: nothing indexed. -/
def BM25Retriever.init (k1 b : ℚ) : BM25Retriever :=
  { k1 := k1, b := b, documents := [], bm25 := none }

/-- index_documents: an empty input resets the state, otherwise the
documents are stored and the model is fitted. -/
def BM25Retriever.index_documents (r : BM25Retriever) (docs : List Doc) : BM25Retriever :=
  if docs = [] then { r with documents := [], bm25 := none }
  else { r with documents := docs, bm25 := some () }

/-- scores[i] access (the code only indexes within bounds). -/
def scoreAt (scores : List ℚ) (i : ℕ) : ℚ := scores.getD i 0

/-- documents[i] access (the code only indexes within bounds). -/
def docAt (docs : List Doc) (i : ℕ) : Doc := docs.getD i ⟨"", "", none⟩

/-- sorted(range(len(scores)), key=lambda i: scores[i], reverse=True):
a stable descending argsort of the score vector. -/
def argsortDesc (scores : List ℚ) : List ℕ :=
  sortDescBy (scoreAt scores) (List.range scores.length)

/-- The result-building loop of BM25Retriever.search: enumerate the
top indices from rank 1, keep a result when its score is strictly above
min_score and, when the requested language is truthy, the document
language equals it; skipped entries still consume their rank. -/
def buildBM25 (docs : List Doc) (scores : List ℚ) (language : String)
    (min_score : ℚ) : List ℕ → ℕ → List BM25Result
  | [], _ => []
  | idx :: rest, rank =>
    let score := scoreAt scores idx
    if min_score < score then
      let doc := docAt docs idx
      let doc_language := doc.language.getD "en"
      if language ≠ "" ∧ doc_language ≠ language then
        buildBM25 docs scores language min_score rest (rank + 1)
      else
        ⟨doc.id, score, rank, doc.text, doc_language⟩ ::
          buildBM25 docs scores language min_score rest (rank + 1)
    else
      buildBM25 docs scores language min_score rest (rank + 1)

/-- Shallow embedding of BM25Retriever.search, parameterised by the
tokenizer and by the library scoring call get_scores (one score per
indexed document). -/
def BM25Retriever.search (r : BM25Retriever)
    (tokenize : String → String → List String)
    (get_scores : List String → List ℚ)
    (query : String) (top_k : ℕ) (language : String) (min_score : ℚ) :
    List BM25Result :=
  match r.bm25 with
  | none => []
  | some _ =>
    if r.documents = [] then []
    else
      let tokenized_query := tokenize query language
      if tokenized_query = [] then []
      else
        let scores := get_scores tokenized_query
        let top_indices := (argsortDesc scores).take top_k
        buildBM25 r.documents scores language min_score top_indices 1

/-- The result the specification describes for one kept index at a
1-based pre-filter rank. -/
def expectedResult (docs : List Doc) (scores : List ℚ) (idx rank : ℕ) : BM25Result :=
  { doc_id := (docAt docs idx).id
    score := scoreAt scores idx
    rank := rank
    text := (docAt docs idx).text
    language := (docAt docs idx).language.getD "en" }

/-- The result list the specification describes: enumerate the
score-descending top-top_k indices with 1-based ranks, then keep exactly
those whose score is strictly above min_score and whose document
language equals the requested one (ranks are not renumbered). -/
def bm25Expected (docs : List Doc) (scores : List ℚ) (language : String)
    (min_score : ℚ) (top_k : ℕ) : List BM25Result :=
  (((argsortDesc scores).take top_k).enumFrom 1).filterMap (fun p =>
    if min_score < scoreAt scores p.2 ∧ (docAt docs p.2).language.getD "en" = language
    then some (expectedResult docs scores p.2 p.1) else none)

/-! ## BM25 scoring formula (for the monotonicity property)

Modelled from the spec: the scoring itself lives in the third-party
rank_bm25 library, and the spec fixes the formula
score(d,q) = sum over t in q of IDF(t) * (tf(t,d)*(k1+1)) /
(tf(t,d) + k1*(1 - b + b*|d|/avgdl)) with the Robertson-Sparck-Jones
smoothed IDF, which may be negative for terms appearing in more than
half the corpus. -/

/-- Modelled from the spec: the Robertson-Sparck-Jones smoothed inverse
document frequency log((N - n + 0.5)/(n + 0.5)) for a term contained in
n of the N corpus documents. -/
noncomputable def bm25IDF (N n : ℝ) : ℝ :=
  Real.log ((N - n + 1 / 2) / (n + 1 / 2))

/-- Modelled from the spec: the contribution of a single query term with
term frequency tf in a document of length dl. -/
noncomputable def bm25TermScore (idf tf k1 b dl avgdl : ℝ) : ℝ :=
  idf * (tf * (k1 + 1)) / (tf + k1 * (1 - b + b * dl / avgdl))

/-- Modelled from the spec: a document score is the sum of the term
scores over the tokenized query. -/
noncomputable def bm25DocScore (idf tf : String → ℝ) (k1 b dl avgdl : ℝ)
    (q : List String) : ℝ :=
  (q.map (fun t => bm25TermScore (idf t) (tf t) k1 b dl avgdl)).sum

/-! ## Graph retriever (backend/retrieval/graph_retriever.py)

The entity extractor and the two Neo4j queries are external
collaborators, passed as function parameters. -/

/-- Extracted entity with metadata (services/entity_extraction.py). -/
structure ExtractedEntity where
  name : String
  type : String
  language : String
  confidence : ℚ
  context : String
deriving DecidableEq, Repr

/-- A row returned by find_entities_by_name; only its id is read. -/
structure EntityMatch where
  id : String
deriving DecidableEq, Repr

/-- A chunk row returned by find_chunks_by_entities. -/
structure GraphChunk where
  id : String
  doc_id : Option String
  score : ℚ
  text : String
  language : Option String
deriving DecidableEq, Repr

/-- Graph-based retrieval result, mirroring the GraphResult dataclass. -/
structure GraphResult where
  doc_id : String
  chunk_id : String
  score : ℚ
  rank : ℕ
  text : String
  language : String
  entities : List String
deriving DecidableEq, Repr

/-- The result-conversion loop of GraphRetriever.search, enumerating
chunks from rank 1. -/
def buildGraphResults (query_entities : List ExtractedEntity) (language : String) :
    List GraphChunk → ℕ → List GraphResult
  | [], _ => []
  | ch :: rest, rank =>
    { doc_id := ch.doc_id.getD "unknown"
      chunk_id := ch.id
      score := ch.score
      rank := rank
      text := ch.text
      language := ch.language.getD language
      entities := query_entities.map (fun e => e.name) } ::
      buildGraphResults query_entities language rest (rank + 1)

/-- Shallow embedding of GraphRetriever.search: extract entities from
the query, look each up in the graph (limit 3), collect the matched
entity ids, and only then fetch and convert chunks. -/
def GraphRetriever.search
    (extract_entities : String → String → List ExtractedEntity)
    (find_entities_by_name : String → String → ℕ → List EntityMatch)
    (find_chunks_by_entities : List String → ℕ → List GraphChunk)
    (query : String) (top_k : ℕ) (language : String) : List GraphResult :=
  let query_entities := extract_entities query language
  if query_entities = [] then []
  else
    let entity_ids := query_entities.flatMap
      (fun e => (find_entities_by_name e.name language 3).map (fun m => m.id))
    if entity_ids = [] then []
    else
      buildGraphResults query_entities language
        (find_chunks_by_entities entity_ids top_k) 1

/-! ## Query orchestrator (backend/routes/query.py)

Each retriever is abstracted to its outcome for the request: absent from
app_state, raising at runtime, or returning a result list. -/

/-- Outcome of one retriever search call for a fixed request. -/
inductive SearchOutcome where
  | ok (results : List MethodResult)
  | failure
deriving DecidableEq, Repr

/-- The shared application state: each retriever is either configured
(with its outcome for this request) or absent. -/
structure AppState where
  bm25_retriever : Option SearchOutcome
  dense_retriever : Option SearchOutcome
  graph_retriever : Option SearchOutcome
deriving DecidableEq, Repr

/-- The request body of the query route. -/
structure QueryRequest where
  query : String
  retrieval_methods : List String
  top_k : ℕ
  rrf_k : ℚ
  language : String
deriving DecidableEq, Repr

/-- The response of the query route (timing fields omitted). -/
structure QueryResponse where
  results : List FusedResult
  methods_used : List String
deriving DecidableEq, Repr

/-- The collection phase of hybrid_search.  BM25 runs without an inner
try/except, so a BM25 runtime failure propagates; dense, the colbert
alias and graph are each wrapped in try/except and merely skipped on
failure.  An unavailable retriever is skipped by the availability
check. -/
def collectMethods (st : AppState) (req : QueryRequest) :
    Except String (List (String × List MethodResult)) :=
  let bm25step : Except String (List (String × List MethodResult)) :=
    if "bm25" ∈ req.retrieval_methods then
      match st.bm25_retriever with
      | none => .ok []
      | some (.ok rs) => .ok [("bm25", rs)]
      | some .failure => .error "bm25 search raised"
    else .ok []
  match bm25step with
  | .error e => .error e
  | .ok d0 =>
    let d1 := if "dense" ∈ req.retrieval_methods then
        match st.dense_retriever with
        | some (.ok rs) => d0 ++ [("dense", rs)]
        | _ => d0
      else d0
    let d2 := if "colbert" ∈ req.retrieval_methods ∧ st.dense_retriever.isSome
        ∧ aget d1 "dense" = none then
        match st.dense_retriever with
        | some (.ok rs) => d1 ++ [("dense", rs)]
        | _ => d1
      else d1
    let d3 := if "graph" ∈ req.retrieval_methods then
        match st.graph_retriever with
        | some (.ok rs) => d2 ++ [("graph", rs)]
        | _ => d2
      else d2
    .ok d3

/-- Shallow embedding of the hybrid_search route: collect the method
results, raise when no method produced any result, otherwise fuse. -/
def hybrid_search (st : AppState) (req : QueryRequest) : Except String QueryResponse :=
  match collectMethods st req with
  | .error e => .error e
  | .ok results_dict =>
    if (results_dict.filter (fun p => !p.2.isEmpty)).isEmpty then
      .error "No documents indexed. Please ingest data before querying."
    else
      .ok { results := reciprocal_rank_fusion results_dict req.rrf_k req.top_k
            methods_used := results_dict.map Prod.fst }

/-- Whether an Except value is a success. -/
def exceptOk {ε α : Type} : Except ε α → Bool
  | .ok _ => true
  | .error _ => false

/-! ## Entity id generation (backend/services/entity_extraction.py)

generate_entity_id lowercases the name, appends an underscore and the
language code, and takes the first 16 hex characters of the MD5 digest
of the UTF-8 encoding.  The MD5 algorithm (a hashlib library call in the
source) is embedded in full below over natural-number bytes and 32-bit
words. -/

/-- ASCII lowercasing of one character (the names settled here are
ASCII; Python str.lower additionally maps non-ASCII letters). -/
def lowerChar (c : Char) : Char :=
  if 'A' ≤ c ∧ c ≤ 'Z' then Char.ofNat (c.toNat + 32) else c

/-- Python str.lower on ASCII strings. -/
def pyLower (s : String) : String := ⟨s.data.map lowerChar⟩

/-- UTF-8 encoding of one code point as bytes. -/
def utf8Char (n : ℕ) : List ℕ :=
  if n < 128 then [n]
  else if n < 2048 then [192 ||| (n >>> 6), 128 ||| (n &&& 63)]
  else if n < 65536 then
    [224 ||| (n >>> 12), 128 ||| ((n >>> 6) &&& 63), 128 ||| (n &&& 63)]
  else
    [240 ||| (n >>> 18), 128 ||| ((n >>> 12) &&& 63),
     128 ||| ((n >>> 6) &&& 63), 128 ||| (n &&& 63)]

/-- str.encode(): the UTF-8 bytes of a string. -/
def strBytes (s : String) : List ℕ :=
  s.data.flatMap (fun c => utf8Char c.toNat)

/-- The 64 per-round shift amounts of MD5. -/
def md5s : List ℕ :=
  [7, 12, 17, 22, 7, 12, 17, 22, 7, 12, 17, 22, 7, 12, 17, 22,
   5, 9, 14, 20, 5, 9, 14, 20, 5, 9, 14, 20, 5, 9, 14, 20,
   4, 11, 16, 23, 4, 11, 16, 23, 4, 11, 16, 23, 4, 11, 16, 23,
   6, 10, 15, 21, 6, 10, 15, 21, 6, 10, 15, 21, 6, 10, 15, 21]

/-- The 64 sine-derived round constants of MD5,
floor(2^32 * abs(sin(i+1))). -/
def md5K : List ℕ :=
  [0xd76aa478, 0xe8c7b756, 0x242070db, 0xc1bdceee,
   0xf57c0faf, 0x4787c62a, 0xa8304613, 0xfd469501,
   0x698098d8, 0x8b44f7af, 0xffff5bb1, 0x895cd7be,
   0x6b901122, 0xfd987193, 0xa679438e, 0x49b40821,
   0xf61e2562, 0xc040b340, 0x265e5a51, 0xe9b6c7aa,
   0xd62f105d, 0x02441453, 0xd8a1e681, 0xe7d3fbc8,
   0x21e1cde6, 0xc33707d6, 0xf4d50d87, 0x455a14ed,
   0xa9e3e905, 0xfcefa3f8, 0x676f02d9, 0x8d2a4c8a,
   0xfffa3942, 0x8771f681, 0x6d9d6122, 0xfde5380c,
   0xa4beea44, 0x4bdecfa9, 0xf6bb4b60, 0xbebfbc70,
   0x289b7ec6, 0xeaa127fa, 0xd4ef3085, 0x04881d05,
   0xd9d4d039, 0xe6db99e5, 0x1fa27cf8, 0xc4ac5665,
   0xf4292244, 0x432aff97, 0xab9423a7, 0xfc93a039,
   0x655b59c3, 0x8f0ccc92, 0xffeff47d, 0x85845dd1,
   0x6fa87e4f, 0xfe2ce6e0, 0xa3014314, 0x4e0811a1,
   0xf7537e82, 0xbd3af235, 0x2ad7d2bb, 0xeb86d391]

/-- 32-bit left rotation. -/
def rotl32 (x c : ℕ) : ℕ := ((x <<< c) ||| (x >>> (32 - c))) % 4294967296

/-- 32-bit complement. -/
def not32 (x : ℕ) : ℕ := x ^^^ 4294967295

/-- Round function rounds 0-15. -/
def md5F (b c d : ℕ) : ℕ := (b &&& c) ||| (not32 b &&& d)

/-- Round function rounds 16-31. -/
def md5G (b c d : ℕ) : ℕ := (d &&& b) ||| (not32 d &&& c)

/-- Round function rounds 32-47. -/
def md5H (b c d : ℕ) : ℕ := b ^^^ c ^^^ d

/-- Round function rounds 48-63. -/
def md5I (b c d : ℕ) : ℕ := c ^^^ (b ||| not32 d)

/-- Little-endian bytes of a number, to a fixed width. -/
def leBytes : ℕ → ℕ → List ℕ
  | 0, _ => []
  | w + 1, n => (n % 256) :: leBytes w (n / 256)

/-- A little-endian word from its bytes. -/
def leWord (bs : List ℕ) : ℕ := bs.foldr (fun b acc => acc * 256 + b) 0

/-- Split a list into chunks of the given size (fuel-bounded structural
recursion; the fuel is always at least the list length where used). -/
def chunksOf {α : Type} : ℕ → ℕ → List α → List (List α)
  | 0, _, _ => []
  | _ + 1, _, [] => []
  | fuel + 1, size, x :: xs =>
      (x :: xs).take size :: chunksOf fuel size ((x :: xs).drop size)

/-- MD5 padding: append the 0x80 byte, zero-pad to 56 mod 64, then the
64-bit little-endian bit length. -/
def padMsg (msg : List ℕ) : List ℕ :=
  let len := msg.length
  let z := (120 - (len + 1) % 64) % 64
  msg ++ [128] ++ List.replicate z 0 ++ leBytes 8 ((len * 8) % 18446744073709551616)

/-- One MD5 round step on the (a, b, c, d) state. -/
def md5Round (M : List ℕ) (st : ℕ × ℕ × ℕ × ℕ) (i : ℕ) : ℕ × ℕ × ℕ × ℕ :=
  match st with
  | (a, b, c, d) =>
    let f := if i < 16 then md5F b c d
      else if i < 32 then md5G b c d
      else if i < 48 then md5H b c d
      else md5I b c d
    let g := if i < 16 then i
      else if i < 32 then (5 * i + 1) % 16
      else if i < 48 then (3 * i + 5) % 16
      else (7 * i) % 16
    let sum := (a + f + md5K.getD i 0 + M.getD g 0) % 4294967296
    let nb := (b + rotl32 sum (md5s.getD i 0)) % 4294967296
    (d, nb, b, c)

/-- Process one 64-byte block. -/
def md5Block (st : ℕ × ℕ × ℕ × ℕ) (block : List ℕ) : ℕ × ℕ × ℕ × ℕ :=
  let M := (chunksOf 64 4 block).map leWord
  match st, (List.range 64).foldl (md5Round M) st with
  | (a, b, c, d), (a2, b2, c2, d2) =>
    ((a + a2) % 4294967296, (b + b2) % 4294967296,
     (c + c2) % 4294967296, (d + d2) % 4294967296)

/-- The MD5 initial state. -/
def md5Init : ℕ × ℕ × ℕ × ℕ := (0x67452301, 0xefcdab89, 0x98badcfe, 0x10325476)

/-- One hex digit character. -/
def hexDigit (n : ℕ) : Char :=
  if n < 10 then Char.ofNat (48 + n) else Char.ofNat (87 + n)

/-- Two hex characters of one byte. -/
def byteHex (b : ℕ) : List Char := [hexDigit (b / 16), hexDigit (b % 16)]

/-- The eight hex characters of one state word, in little-endian byte
order as MD5 prescribes. -/
def wordHexLE (w : ℕ) : List Char := (leBytes 4 w).flatMap byteHex

/-- The 32-character hex digest of a byte sequence under MD5. -/
def md5Hex (msg : List ℕ) : String :=
  match (chunksOf (msg.length + 73) 64 (padMsg msg)).foldl md5Block md5Init with
  | (a, b, c, d) => ⟨wordHexLE a ++ wordHexLE b ++ wordHexLE c ++ wordHexLE d⟩

/-- Shallow embedding of EntityExtractor.generate_entity_id: the first
16 hex characters of md5 of the UTF-8 encoding of
lowercased-name, underscore, language. -/
def generate_entity_id (name language : String) : String :=
  ⟨(md5Hex (strBytes (pyLower name ++ "_" ++ language))).data.take 16⟩

/-! ## Lemmas: association-list primitives -/

theorem aget_aset {β : Type} (l : List (String × β)) (key : String) (v : β)
    (key2 : String) :
    aget (aset l key v) key2 = if key = key2 then some v else aget l key2 := by
  induction l with
  | nil => by_cases h : key = key2 <;> simp [aset, aget, h]
  | cons hd tl ih =>
    obtain ⟨k, w⟩ := hd
    by_cases h1 : k = key
    · subst h1
      by_cases h2 : k = key2 <;> simp [aset, aget, h2]
    · by_cases h2 : k = key2
      · subst h2
        have h3 : ¬ key = k := fun he => h1 he.symm
        simp [aset, aget, h1, h3]
      · simp [aset, aget, h1, h2, ih]

theorem aget_append {β : Type} (l1 l2 : List (String × β)) (key : String) :
    aget (l1 ++ l2) key = (aget l1 key).or (aget l2 key) := by
  induction l1 with
  | nil => simp [aget]
  | cons hd tl ih =>
    obtain ⟨k, w⟩ := hd
    by_cases h : k = key <;> simp [aget, h, ih]

theorem aget_addScore (l : List (String × ℚ)) (key : String) (x : ℚ)
    (key2 : String) :
    aget (addScore l key x) key2 =
      if key = key2 then some ((aget l key2).getD 0 + x) else aget l key2 := by
  induction l with
  | nil => by_cases h : key = key2 <;> simp [addScore, aget, h]
  | cons hd tl ih =>
    obtain ⟨k, w⟩ := hd
    by_cases h1 : k = key
    · subst h1
      by_cases h2 : k = key2 <;> simp [addScore, aget, h2]
    · by_cases h2 : k = key2
      · subst h2
        have h3 : ¬ key = k := fun he => h1 he.symm
        simp [addScore, aget, h1, h3]
      · simp [addScore, aget, h1, h2, ih]

theorem sc_addScore (l : List (String × ℚ)) (key : String) (x : ℚ)
    (key2 : String) :
    sc (addScore l key x) key2 = sc l key2 + if key = key2 then x else 0 := by
  unfold sc
  rw [aget_addScore]
  by_cases h : key = key2 <;> simp [h]

theorem keys_addScore (l : List (String × ℚ)) (key : String) (x : ℚ) :
    (addScore l key x).map Prod.fst =
      if key ∈ l.map Prod.fst then l.map Prod.fst else l.map Prod.fst ++ [key] := by
  induction l with
  | nil => simp [addScore]
  | cons hd tl ih =>
    obtain ⟨k, w⟩ := hd
    by_cases h1 : k = key
    · subst h1
      simp [addScore]
    · have h3 : ¬ key = k := fun he => h1 he.symm
      by_cases h2 : key ∈ tl.map Prod.fst <;>
        simp [addScore, h1, h2, h3, ih]

theorem nodupKeys_addScore (l : List (String × ℚ)) (key : String) (x : ℚ)
    (h : (l.map Prod.fst).Nodup) :
    ((addScore l key x).map Prod.fst).Nodup := by
  rw [keys_addScore]
  by_cases hm : key ∈ l.map Prod.fst
  · simpa [hm] using h
  · simp only [hm, if_false]
    exact List.Nodup.append h (List.nodup_singleton key) (by simpa using hm)

theorem aget_of_mem_nodup {β : Type} {l : List (String × β)} {key : String}
    {v : β} (hnd : (l.map Prod.fst).Nodup) (hm : (key, v) ∈ l) :
    aget l key = some v := by
  induction l with
  | nil => cases hm
  | cons hd tl ih =>
    obtain ⟨k, w⟩ := hd
    rcases List.mem_cons.mp hm with h | h
    · cases h
      simp [aget]
    · have hnd2 := List.nodup_cons.mp (show (k :: tl.map Prod.fst).Nodup by simpa using hnd)
      have hk : ¬ k = key := by
        intro he
        apply hnd2.1
        rw [he]
        exact List.mem_map.mpr ⟨(key, v), h, rfl⟩
      simp [aget, hk]
      exact ih hnd2.2 h

theorem aget2_setNested {β : Type} (l : List (String × List (String × β)))
    (key m : String) (v : β) (key2 m2 : String) :
    aget2 (setNested l key m v) key2 m2 =
      if key = key2 ∧ m = m2 then some v else aget2 l key2 m2 := by
  unfold setNested aget2
  cases h : aget l key with
  | some inner =>
    rw [aget_aset]
    by_cases h1 : key = key2
    · subst h1
      rw [h]
      by_cases h2 : m = m2 <;> simp [aget_aset, h2]
    · simp [h1]
  | none =>
    rw [aget_append]
    by_cases h1 : key = key2
    · subst h1
      rw [h]
      by_cases h2 : m = m2 <;> simp [aget, h2]
    · simp [aget, h1, Option.or]
      cases hx : aget l key2 <;> simp [hx]

theorem aget_getD_nil {β : Type} (l : List (String × List (String × β)))
    (key m : String) :
    aget ((aget l key).getD []) m = aget2 l key m := by
  unfold aget2
  cases h : aget l key <;> simp [aget]

/-! ## Lemmas: the accumulation pass -/

theorem mem_of_aget {β : Type} {l : List (String × β)} {key : String} {v : β}
    (h : aget l key = some v) : (key, v) ∈ l := by
  induction l with
  | nil => simp [aget] at h
  | cons hd tl ih =>
    obtain ⟨k, w⟩ := hd
    by_cases hk : k = key
    · subst hk
      simp [aget] at h
      simp [h]
    · simp [aget, hk] at h
      exact List.mem_cons_of_mem _ (ih h)

theorem sc_processResult (k : ℚ) (m : String) (st : FuseState) (rank : ℕ)
    (r : MethodResult) (id : String) :
    sc (processResult k m st rank r).rrf_scores id =
      sc st.rrf_scores id + (if effId r = some id then 1 / (k + (rank : ℚ)) else 0) := by
  cases h : effId r with
  | none => simp [processResult, h]
  | some j =>
    simp only [processResult, h]
    rw [show sc (addScore st.rrf_scores j (1 / (k + (rank : ℚ)))) id =
      sc st.rrf_scores id + if j = id then 1 / (k + (rank : ℚ)) else 0 from
      sc_addScore _ _ _ _]
    by_cases hj : j = id <;> simp [hj]

theorem ranks_processResult (k : ℚ) (m : String) (st : FuseState) (rank : ℕ)
    (r : MethodResult) (id m2 : String) :
    aget2 (processResult k m st rank r).method_ranks id m2 =
      if effId r = some id ∧ m = m2 then some rank
      else aget2 st.method_ranks id m2 := by
  cases h : effId r with
  | none => simp [processResult, h]
  | some j =>
    simp only [processResult, h]
    rw [aget2_setNested]
    by_cases hj : j = id <;> by_cases hm : m = m2 <;> simp [hj, hm]

theorem scores_processResult (k : ℚ) (m : String) (st : FuseState) (rank : ℕ)
    (r : MethodResult) (id m2 : String) :
    aget2 (processResult k m st rank r).method_scores id m2 =
      if effId r = some id ∧ m = m2 then some (r.score.getD 0)
      else aget2 st.method_scores id m2 := by
  cases h : effId r with
  | none => simp [processResult, h]
  | some j =>
    simp only [processResult, h]
    rw [aget2_setNested]
    by_cases hj : j = id <;> by_cases hm : m = m2 <;> simp [hj, hm]

theorem sc_processList (k : ℚ) (m : String) (rs : List MethodResult) :
    ∀ (st : FuseState) (rank : ℕ) (id : String),
    sc (processList k m st rank rs).rrf_scores id =
      sc st.rrf_scores id + contrib k rs rank id := by
  induction rs with
  | nil => intro st rank id; simp [processList, contrib]
  | cons r rest ih =>
    intro st rank id
    simp only [processList, contrib]
    rw [ih, sc_processResult]
    ring

theorem ranks_processList (k : ℚ) (m : String) (rs : List MethodResult) :
    ∀ (st : FuseState) (rank : ℕ) (id m2 : String),
    aget2 (processList k m st rank rs).method_ranks id m2 =
      (if m = m2 then lastOcc id rs rank else none).or (aget2 st.method_ranks id m2) := by
  induction rs with
  | nil =>
    intro st rank id m2
    by_cases hm : m = m2 <;> simp [processList, lastOcc, hm, Option.or]
  | cons r rest ih =>
    intro st rank id m2
    simp only [processList]
    rw [ih, ranks_processResult]
    by_cases hm : m = m2
    · simp only [hm, if_true, lastOcc]
      cases hlast : lastOcc id rest (rank + 1) with
      | some j => simp [Option.or]
      | none =>
        by_cases hr : effId r = some id <;> simp [hr, hm, Option.or]
    · simp [hm, Option.or]

theorem scores_processList (k : ℚ) (m : String) (rs : List MethodResult) :
    ∀ (st : FuseState) (rank : ℕ) (id m2 : String),
    aget2 (processList k m st rank rs).method_scores id m2 =
      (if m = m2 then lastScore id rs else none).or (aget2 st.method_scores id m2) := by
  induction rs with
  | nil =>
    intro st rank id m2
    by_cases hm : m = m2 <;> simp [processList, lastScore, hm, Option.or]
  | cons r rest ih =>
    intro st rank id m2
    simp only [processList]
    rw [ih, scores_processResult]
    by_cases hm : m = m2
    · simp only [hm, if_true, lastScore]
      cases hlast : lastScore id rest with
      | some x => simp [Option.or]
      | none =>
        by_cases hr : effId r = some id <;> simp [hr, hm, Option.or]
    · simp [hm, Option.or]

theorem sc_processAll (k : ℚ) (rd : List (String × List MethodResult)) :
    ∀ (st : FuseState) (id : String),
    sc (processAll k st rd).rrf_scores id =
      sc st.rrf_scores id + totalContrib k rd id := by
  induction rd with
  | nil => intro st id; simp [processAll, totalContrib]
  | cons p rest ih =>
    intro st id
    obtain ⟨m, l⟩ := p
    simp only [processAll, totalContrib]
    rw [ih, sc_processList]
    ring

theorem ranks_processAll (k : ℚ) (rd : List (String × List MethodResult)) :
    ∀ (st : FuseState) (id m : String),
    aget2 (processAll k st rd).method_ranks id m =
      (methodLast id m rd).or (aget2 st.method_ranks id m) := by
  induction rd with
  | nil => intro st id m; simp [processAll, methodLast, Option.or]
  | cons p rest ih =>
    intro st id m
    obtain ⟨m2, l⟩ := p
    simp only [processAll, methodLast]
    rw [ih, ranks_processList]
    cases hrest : methodLast id m rest with
    | some j => simp [Option.or]
    | none =>
      by_cases hm : m2 = m
      · subst hm
        cases hl : lastOcc id l 1 <;> simp [hl, Option.or]
      · have hm2 : ¬ m = m2 := fun he => hm he.symm
        simp [hm, hm2, Option.or]

theorem scores_processAll (k : ℚ) (rd : List (String × List MethodResult)) :
    ∀ (st : FuseState) (id m : String),
    aget2 (processAll k st rd).method_scores id m =
      (methodLastScore id m rd).or (aget2 st.method_scores id m) := by
  induction rd with
  | nil => intro st id m; simp [processAll, methodLastScore, Option.or]
  | cons p rest ih =>
    intro st id m
    obtain ⟨m2, l⟩ := p
    simp only [processAll, methodLastScore]
    rw [ih, scores_processList]
    cases hrest : methodLastScore id m rest with
    | some x => simp [Option.or]
    | none =>
      by_cases hm : m2 = m
      · subst hm
        cases hl : lastScore id l <;> simp [hl, Option.or]
      · have hm2 : ¬ m = m2 := fun he => hm he.symm
        simp [hm, hm2, Option.or]

theorem infoInv_processResult (k : ℚ) (m : String) (st : FuseState) (rank : ℕ)
    (r : MethodResult) (h : InfoInv st) : InfoInv (processResult k m st rank r) := by
  cases he : effId r with
  | none => simpa [processResult, he] using h
  | some j =>
    intro id info hget
    simp only [processResult, he, setInfo] at hget
    by_cases hp : (aget st.doc_info j).isSome
    · exact h id info (by simpa [hp] using hget)
    · rw [if_neg hp, aget_append] at hget
      cases hl : aget st.doc_info id with
      | some info2 =>
        rw [hl] at hget
        simp [Option.or] at hget
        exact hget ▸ h id info2 hl
      | none =>
        rw [hl] at hget
        simp [Option.or, aget] at hget
        by_cases hj : j = id
        · simp [hj] at hget
          cases hget
          simp [hj]
        · simp [hj] at hget
 
theorem infoInv_processList (k : ℚ) (m : String) (rs : List MethodResult) :
    ∀ (st : FuseState) (rank : ℕ), InfoInv st → InfoInv (processList k m st rank rs) := by
  induction rs with
  | nil => intro st rank h; simpa [processList] using h
  | cons r rest ih =>
    intro st rank h
    exact ih _ _ (infoInv_processResult k m st rank r h)

theorem infoInv_processAll (k : ℚ) (rd : List (String × List MethodResult)) :
    ∀ (st : FuseState), InfoInv st → InfoInv (processAll k st rd) := by
  induction rd with
  | nil => intro st h; simpa [processAll] using h
  | cons p rest ih =>
    intro st h
    obtain ⟨m, l⟩ := p
    exact ih _ (infoInv_processList k m l st 1 h)

theorem infoInv_init : InfoInv initState := by
  intro id info h
  simp [initState, aget] at h

/-! ## Lemmas: the stable descending sort -/

theorem insertDescBy_perm {α : Type} (key : α → ℚ) (x : α) (l : List α) :
    (insertDescBy key x l).Perm (x :: l) := by
  induction l with
  | nil => simp [insertDescBy]
  | cons y ys ih =>
    by_cases h : key y < key x
    · simp [insertDescBy, h]
    · rw [insertDescBy, if_neg h]
      exact (ih.cons y).trans (List.Perm.swap x y ys)

theorem mem_insertDescBy {α : Type} (key : α → ℚ) (x : α) (l : List α) (z : α) :
    z ∈ insertDescBy key x l ↔ z = x ∨ z ∈ l := by
  rw [(insertDescBy_perm key x l).mem_iff]
  simp

theorem sortAux_perm {α : Type} (key : α → ℚ) (l : List α) :
    ∀ acc, (List.foldl (fun acc x => insertDescBy key x acc) acc l).Perm (l ++ acc) := by
  induction l with
  | nil => intro acc; simp
  | cons x xs ih =>
    intro acc
    simp only [List.foldl_cons]
    refine (ih _).trans ?_
    refine (List.Perm.append_left xs (insertDescBy_perm key x acc)).trans ?_
    exact List.perm_middle

theorem sortDescBy_perm {α : Type} (key : α → ℚ) (l : List α) :
    (sortDescBy key l).Perm l := by
  simpa using sortAux_perm key l []

theorem insertDescBy_pairwise {α : Type} (key : α → ℚ) (x : α) (l : List α)
    (h : List.Pairwise (fun a b => key b ≤ key a) l) :
    List.Pairwise (fun a b => key b ≤ key a) (insertDescBy key x l) := by
  induction l with
  | nil => simp [insertDescBy]
  | cons y ys ih =>
    obtain ⟨h1, h2⟩ := List.pairwise_cons.mp h
    by_cases hc : key y < key x
    · rw [insertDescBy, if_pos hc]
      refine List.pairwise_cons.mpr ⟨?_, h⟩
      intro z hz
      rcases List.mem_cons.mp hz with hz | hz
      · exact hz ▸ le_of_lt hc
      · exact le_of_lt (lt_of_le_of_lt (h1 z hz) hc)
    · rw [insertDescBy, if_neg hc]
      refine List.pairwise_cons.mpr ⟨?_, ih h2⟩
      intro z hz
      rcases (mem_insertDescBy key x ys z).mp hz with hz | hz
      · exact hz ▸ le_of_not_lt hc
      · exact h1 z hz

theorem sortAux_pairwise {α : Type} (key : α → ℚ) (l : List α) :
    ∀ acc, List.Pairwise (fun a b => key b ≤ key a) acc →
    List.Pairwise (fun a b => key b ≤ key a)
      (List.foldl (fun acc x => insertDescBy key x acc) acc l) := by
  induction l with
  | nil => intro acc h; simpa using h
  | cons x xs ih =>
    intro acc h
    simp only [List.foldl_cons]
    exact ih _ (insertDescBy_pairwise key x acc h)

theorem sortDescBy_pairwise {α : Type} (key : α → ℚ) (l : List α) :
    List.Pairwise (fun a b => key b ≤ key a) (sortDescBy key l) :=
  sortAux_pairwise key l [] (List.Pairwise.nil)

theorem insertDescBy_filter {α : Type} (key : α → ℚ) (x : α) (l : List α)
    (h : List.Pairwise (fun a b => key b ≤ key a) l) (v : ℚ) :
    (insertDescBy key x l).filter (fun a => decide (key a = v)) =
      l.filter (fun a => decide (key a = v)) ++ (if key x = v then [x] else []) := by
  induction l with
  | nil => by_cases hv : key x = v <;> simp [insertDescBy, hv]
  | cons y ys ih =>
    obtain ⟨h1, h2⟩ := List.pairwise_cons.mp h
    by_cases hc : key y < key x
    · rw [insertDescBy, if_pos hc]
      by_cases hv : key x = v
      · have hnil : (y :: ys).filter (fun a => decide (key a = v)) = [] := by
          refine List.filter_eq_nil_iff.mpr ?_
          intro z hz
          have hle : key z ≤ key y := by
            rcases List.mem_cons.mp hz with hz | hz
            · exact hz ▸ le_refl _
            · exact h1 z hz
          have hlt : key z < key x := lt_of_le_of_lt hle hc
          simp [hv ▸ ne_of_lt hlt]
        simp [List.filter_cons, hv, hnil]
      · simp [List.filter_cons, hv]
    · rw [insertDescBy, if_neg hc]
      by_cases hy : key y = v <;>
        simp [List.filter_cons, hy, ih h2, List.append_assoc]

theorem sortAux_filter {α : Type} (key : α → ℚ) (l : List α) (v : ℚ) :
    ∀ acc, List.Pairwise (fun a b => key b ≤ key a) acc →
    (List.foldl (fun acc x => insertDescBy key x acc) acc l).filter
        (fun a => decide (key a = v)) =
      acc.filter (fun a => decide (key a = v)) ++ l.filter (fun a => decide (key a = v)) := by
  induction l with
  | nil => intro acc h; simp
  | cons x xs ih =>
    intro acc h
    simp only [List.foldl_cons]
    rw [ih _ (insertDescBy_pairwise key x acc h), insertDescBy_filter key x acc h v,
      List.filter_cons]
    by_cases hv : key x = v <;> simp [hv, List.append_assoc]

theorem sortDescBy_filter {α : Type} (key : α → ℚ) (l : List α) (v : ℚ) :
    (sortDescBy key l).filter (fun a => decide (key a = v)) =
      l.filter (fun a => decide (key a = v)) := by
  simpa using sortAux_filter key l v [] (List.Pairwise.nil)

/-! ## Lemmas: insertion order of the score dict -/

theorem dedupFirstAux_congr (l : List String) :
    ∀ (s1 s2 : List String), (∀ x, x ∈ s1 ↔ x ∈ s2) →
    dedupFirstAux s1 l = dedupFirstAux s2 l := by
  induction l with
  | nil => intro s1 s2 h; rfl
  | cons x xs ih =>
    intro s1 s2 h
    by_cases hx : x ∈ s1
    · rw [dedupFirstAux, if_pos hx, dedupFirstAux, if_pos ((h x).mp hx)]
      exact ih s1 s2 h
    · rw [dedupFirstAux, if_neg hx, dedupFirstAux, if_neg (fun hc => hx ((h x).mpr hc))]
      refine congrArg (x :: ·) (ih _ _ ?_)
      intro z
      simp [h z]

theorem mem_dedupFirstAux (l : List String) :
    ∀ (s : List String) (x : String), x ∈ dedupFirstAux s l ↔ x ∈ l ∧ x ∉ s := by
  induction l with
  | nil => intro s x; simp [dedupFirstAux]
  | cons y ys ih =>
    intro s x
    by_cases hy : y ∈ s
    · rw [dedupFirstAux, if_pos hy, ih]
      constructor
      · rintro ⟨h1, h2⟩
        exact ⟨List.mem_cons_of_mem _ h1, h2⟩
      · rintro ⟨h1, h2⟩
        rcases List.mem_cons.mp h1 with h1 | h1
        · exact absurd (h1 ▸ hy) h2
        · exact ⟨h1, h2⟩
    · rw [dedupFirstAux, if_neg hy]
      by_cases hxy : x = y
      · subst hxy
        simp [hy]
      · simp [List.mem_cons, hxy, ih]

theorem nodup_dedupFirstAux (l : List String) :
    ∀ (s : List String), (dedupFirstAux s l).Nodup := by
  induction l with
  | nil => intro s; simp [dedupFirstAux]
  | cons y ys ih =>
    intro s
    by_cases hy : y ∈ s
    · rw [dedupFirstAux, if_pos hy]
      exact ih s
    · rw [dedupFirstAux, if_neg hy]
      refine List.nodup_cons.mpr ⟨?_, ih (y :: s)⟩
      intro hc
      exact ((mem_dedupFirstAux ys (y :: s) y).mp hc).2 (List.mem_cons_self y s)

theorem dedupFirstAux_append (b a : List String) :
    ∀ (s : List String),
    dedupFirstAux s (a ++ b) = dedupFirstAux s a ++ dedupFirstAux (a ++ s) b := by
  induction a with
  | nil => intro s; simp [dedupFirstAux]
  | cons x a2 ih =>
    intro s
    by_cases hx : x ∈ s
    · rw [List.cons_append, dedupFirstAux, if_pos hx, dedupFirstAux, if_pos hx, ih]
      refine congrArg (dedupFirstAux s a2 ++ ·) ?_
      refine dedupFirstAux_congr b _ _ ?_
      intro z
      constructor
      · intro h
        rcases List.mem_append.mp h with h | h
        · exact List.mem_cons_of_mem _ (List.mem_append.mpr (Or.inl h))
        · exact List.mem_cons_of_mem _ (List.mem_append.mpr (Or.inr h))
      · intro h
        rcases List.mem_cons.mp h with h | h
        · exact List.mem_append.mpr (Or.inr (h ▸ hx))
        · rcases List.mem_append.mp h with h | h
          · exact List.mem_append.mpr (Or.inl h)
          · exact List.mem_append.mpr (Or.inr h)
    · rw [List.cons_append, dedupFirstAux, if_neg hx, dedupFirstAux, if_neg hx, ih (x :: s)]
      rw [List.cons_append]
      refine congrArg (x :: ·) ?_
      refine congrArg (dedupFirstAux (x :: s) a2 ++ ·) ?_
      refine dedupFirstAux_congr b _ _ ?_
      intro z
      constructor
      · intro h
        rcases List.mem_append.mp h with h | h
        · exact List.mem_cons_of_mem _ (List.mem_append.mpr (Or.inl h))
        · rcases List.mem_cons.mp h with h | h
          · exact h ▸ List.mem_cons_self x _
          · exact List.mem_cons_of_mem _ (List.mem_append.mpr (Or.inr h))
      · intro h
        rcases List.mem_cons.mp h with h | h
        · exact List.mem_append.mpr (Or.inr (h ▸ List.mem_cons_self x s))
        · rcases List.mem_append.mp h with h | h
          · exact List.mem_append.mpr (Or.inl h)
          · exact List.mem_append.mpr (Or.inr (List.mem_cons_of_mem _ h))

theorem keys_processList (k : ℚ) (m : String) (rs : List MethodResult) :
    ∀ (st : FuseState) (rank : ℕ),
    (processList k m st rank rs).rrf_scores.map Prod.fst =
      st.rrf_scores.map Prod.fst ++
        dedupFirstAux (st.rrf_scores.map Prod.fst) (rs.filterMap effId) := by
  induction rs with
  | nil => intro st rank; simp [processList, dedupFirstAux]
  | cons r rest ih =>
    intro st rank
    simp only [processList]
    rw [ih]
    cases he : effId r with
    | none => simp [processResult, he, List.filterMap_cons, dedupFirstAux]
    | some id =>
      have hkeys : (processResult k m st rank r).rrf_scores.map Prod.fst =
          if id ∈ st.rrf_scores.map Prod.fst then st.rrf_scores.map Prod.fst
          else st.rrf_scores.map Prod.fst ++ [id] := by
        simp only [processResult, he]
        exact keys_addScore _ _ _
      rw [List.filterMap_cons, he]
      by_cases hid : id ∈ st.rrf_scores.map Prod.fst
      · rw [hkeys, if_pos hid, dedupFirstAux, if_pos hid]
      · rw [hkeys, if_neg hid, dedupFirstAux, if_neg hid, List.append_assoc]
        refine congrArg (st.rrf_scores.map Prod.fst ++ ·) ?_
        rw [List.singleton_append]
        refine congrArg (id :: ·) ?_
        refine dedupFirstAux_congr _ _ _ ?_
        intro z
        simp [or_comm]

theorem keys_processAll (k : ℚ) (rd : List (String × List MethodResult)) :
    ∀ (st : FuseState),
    (processAll k st rd).rrf_scores.map Prod.fst =
      st.rrf_scores.map Prod.fst ++
        dedupFirstAux (st.rrf_scores.map Prod.fst) (seenIds rd) := by
  induction rd with
  | nil => intro st; simp [processAll, seenIds, dedupFirstAux]
  | cons p rest ih =>
    intro st
    obtain ⟨m, l⟩ := p
    simp only [processAll]
    rw [ih, keys_processList]
    have hseen : seenIds ((m, l) :: rest) = l.filterMap effId ++ seenIds rest := by
      simp [seenIds]
    rw [hseen, dedupFirstAux_append, ← List.append_assoc]
    refine congrArg ((st.rrf_scores.map Prod.fst ++
      dedupFirstAux (st.rrf_scores.map Prod.fst) (l.filterMap effId)) ++ ·) ?_
    refine dedupFirstAux_congr _ _ _ ?_
    intro z
    rw [List.mem_append, List.mem_append, mem_dedupFirstAux]
    constructor
    · rintro (h | ⟨h1, h2⟩)
      · exact Or.inr h
      · exact Or.inl h1
    · rintro (h | h)
      · by_cases hz : z ∈ st.rrf_scores.map Prod.fst
        · exact Or.inl hz
        · exact Or.inr ⟨h, hz⟩
      · exact Or.inl h

theorem keys_rrf (k : ℚ) (rd : List (String × List MethodResult)) :
    (processAll k initState rd).rrf_scores.map Prod.fst = firstSeenIds rd := by
  rw [keys_processAll]
  simp [initState, firstSeenIds]

theorem nodupKeys_rrf (k : ℚ) (rd : List (String × List MethodResult)) :
    ((processAll k initState rd).rrf_scores.map Prod.fst).Nodup := by
  rw [keys_rrf]
  exact nodup_dedupFirstAux _ _

/-! ## Lemmas: building the final results -/

theorem option_or_none {α : Type} (o : Option α) : o.or none = o := by
  cases o <;> rfl

theorem buildFused_eq_map (st : FuseState) (pairs : List (String × ℚ)) :
    ∀ n, buildFused st pairs n = (pairs.enumFrom n).map (fun q => fusedAt st q.2 q.1) := by
  induction pairs with
  | nil => intro n; simp [buildFused, List.enumFrom]
  | cons p rest ih =>
    intro n
    simp only [buildFused, List.enumFrom, List.map_cons]
    exact congrArg _ (ih (n + 1))

theorem fusedAt_chunk (st : FuseState) (p : String × ℚ) (n : ℕ)
    (h : InfoInv st) : (fusedAt st p n).chunk_id = p.1 := by
  unfold fusedAt
  cases hg : aget st.doc_info p.1 with
  | none => simp [defaultInfo]
  | some info => simpa using h p.1 info hg

theorem rrf_eq_map (rd : List (String × List MethodResult)) (k : ℚ) (top_k : ℕ) :
    reciprocal_rank_fusion rd k top_k =
      (((sortDesc (processAll k initState rd).rrf_scores).take top_k).enumFrom 1).map
        (fun q => fusedAt (processAll k initState rd) q.2 q.1) := by
  unfold reciprocal_rank_fusion
  exact buildFused_eq_map _ _ 1

theorem rrf_mem_pair {rd : List (String × List MethodResult)} {k : ℚ} {top_k : ℕ}
    {fr : FusedResult} (h : fr ∈ reciprocal_rank_fusion rd k top_k) :
    ∃ p ∈ (processAll k initState rd).rrf_scores, ∃ n,
      fr = fusedAt (processAll k initState rd) p n := by
  rw [rrf_eq_map] at h
  obtain ⟨q, hq, rfl⟩ := List.mem_map.mp h
  have h2 : q.2 ∈ (sortDesc (processAll k initState rd).rrf_scores).take top_k := by
    have := List.enumFrom_map_snd 1 ((sortDesc (processAll k initState rd).rrf_scores).take top_k)
    rw [← this]
    exact List.mem_map.mpr ⟨q, hq, rfl⟩
  have h3 : q.2 ∈ (processAll k initState rd).rrf_scores := by
    have h4 := (List.take_sublist top_k _).mem h2
    exact (sortDescBy_perm Prod.snd _).mem_iff.mp h4
  exact ⟨q.2, h3, q.1, rfl⟩

theorem rrf_fields {rd : List (String × List MethodResult)} {k : ℚ} {top_k : ℕ}
    {fr : FusedResult} (h : fr ∈ reciprocal_rank_fusion rd k top_k) :
    fr.rrf_score = totalContrib k rd fr.chunk_id ∧
    (∀ m, aget fr.method_ranks m = methodLast fr.chunk_id m rd) ∧
    (∀ m, aget fr.method_scores m = methodLastScore fr.chunk_id m rd) := by
  obtain ⟨p, hp, n, rfl⟩ := rrf_mem_pair h
  have hinv : InfoInv (processAll k initState rd) :=
    infoInv_processAll k rd initState infoInv_init
  have hchunk : (fusedAt (processAll k initState rd) p n).chunk_id = p.1 :=
    fusedAt_chunk _ _ _ hinv
  have hget : aget (processAll k initState rd).rrf_scores p.1 = some p.2 := by
    refine aget_of_mem_nodup (nodupKeys_rrf k rd) ?_
    simpa using hp
  have hsc : sc (processAll k initState rd).rrf_scores p.1 = p.2 := by
    simp [sc, hget]
  have htotal : p.2 = totalContrib k rd p.1 := by
    have := sc_processAll k rd initState p.1
    rw [hsc] at this
    simpa [sc, initState, aget] using this
  refine ⟨?_, ?_, ?_⟩
  · rw [hchunk]
    exact htotal
  · intro m
    rw [hchunk]
    show aget ((aget (processAll k initState rd).method_ranks p.1).getD []) m = _
    rw [aget_getD_nil, ranks_processAll]
    simp only [initState, aget2, aget, Option.bind]
    exact option_or_none _
  · intro m
    rw [hchunk]
    show aget ((aget (processAll k initState rd).method_scores p.1).getD []) m = _
    rw [aget_getD_nil, scores_processAll]
    simp only [initState, aget2, aget, Option.bind]
    exact option_or_none _

/-! ## Lemmas: contributions under distinct ids, rank-attribute blindness -/

theorem contrib_eq_zero (k : ℚ) (rs : List MethodResult) :
    ∀ (rank : ℕ) (id : String), id ∉ rs.filterMap effId →
    contrib k rs rank id = 0 := by
  induction rs with
  | nil => intro rank id h; simp [contrib]
  | cons r rest ih =>
    intro rank id h
    rw [List.filterMap_cons] at h
    cases he : effId r with
    | none =>
      rw [he] at h
      simp [contrib, he, ih (rank + 1) id h]
    | some j =>
      rw [he] at h
      simp only [List.mem_cons] at h
      push_neg at h
      have hj : ¬ (some j = some id) := by
        intro hc
        exact h.1 (Option.some.inj hc).symm
      simp [contrib, he, hj, ih (rank + 1) id h.2]

theorem contrib_of_nodup (k : ℚ) (rs : List MethodResult) :
    ∀ (rank : ℕ) (id : String), (rs.filterMap effId).Nodup →
    contrib k rs rank id =
      (match posRank id rs rank with
       | some j => 1 / (k + (j : ℚ))
       | none => 0) := by
  induction rs with
  | nil => intro rank id h; simp [contrib, posRank]
  | cons r rest ih =>
    intro rank id h
    cases he : effId r with
    | none =>
      have hrest : (rest.filterMap effId).Nodup := by
        rwa [List.filterMap_cons, he] at h
      simp [contrib, posRank, he, ih (rank + 1) id hrest]
    | some j =>
      have hcons : (j :: rest.filterMap effId).Nodup := by
        rwa [List.filterMap_cons, he] at h
      have hrest := (List.nodup_cons.mp hcons).2
      by_cases hj : j = id
      · subst hj
        have hnot : j ∉ rest.filterMap effId := (List.nodup_cons.mp hcons).1
        simp [contrib, posRank, he, contrib_eq_zero k rest (rank + 1) j hnot]
      · have hj2 : ¬ (some j = some id) := fun hc => hj (Option.some.inj hc)
        simp [contrib, posRank, he, hj2, ih (rank + 1) id hrest]

theorem totalContrib_eq_specSum (k : ℚ) (rd : List (String × List MethodResult))
    (id : String) (h : ∀ p ∈ rd, (p.2.filterMap effId).Nodup) :
    totalContrib k rd id = specSum k rd id := by
  induction rd with
  | nil => simp [totalContrib, specSum]
  | cons p rest ih =>
    obtain ⟨m, l⟩ := p
    have h1 : (l.filterMap effId).Nodup := h (m, l) (List.mem_cons_self _ _)
    have h2 : ∀ q ∈ rest, (q.2.filterMap effId).Nodup :=
      fun q hq => h q (List.mem_cons_of_mem _ hq)
    simp only [totalContrib, specSum, List.map_cons, List.sum_cons]
    rw [contrib_of_nodup k l 1 id h1, ih h2]
    rfl

theorem processResult_setRank (k : ℚ) (m : String) (st : FuseState) (rank : ℕ)
    (r : MethodResult) (v : Option ℕ) :
    processResult k m st rank { r with rank := v } = processResult k m st rank r := by
  cases r
  rfl

theorem processList_setRank (k : ℚ) (m : String) (f : MethodResult → Option ℕ)
    (rs : List MethodResult) :
    ∀ (st : FuseState) (rank : ℕ),
    processList k m st rank (rs.map (fun r => { r with rank := f r })) =
      processList k m st rank rs := by
  induction rs with
  | nil => intro st rank; rfl
  | cons r rest ih =>
    intro st rank
    simp only [List.map_cons, processList, processResult_setRank]
    exact ih _ _

theorem processAll_setRank (k : ℚ) (f : MethodResult → Option ℕ)
    (rd : List (String × List MethodResult)) :
    ∀ (st : FuseState), processAll k st (setRankAll f rd) = processAll k st rd := by
  induction rd with
  | nil => intro st; rfl
  | cons p rest ih =>
    intro st
    obtain ⟨m, l⟩ := p
    simp only [setRankAll, List.map_cons, processAll] at *
    rw [processList_setRank]
    exact ih _

theorem processAll_empty (k : ℚ) (rd : List (String × List MethodResult)) :
    ∀ (st : FuseState), (∀ p ∈ rd, p.2 = []) → processAll k st rd = st := by
  induction rd with
  | nil => intro st h; rfl
  | cons p rest ih =>
    intro st h
    obtain ⟨m, l⟩ := p
    have hl : l = [] := h (m, l) (List.mem_cons_self _ _)
    subst hl
    simp only [processAll, processList]
    exact ih st (fun q hq => h q (List.mem_cons_of_mem _ hq))

theorem enumFrom_filter_snd (pairs : List (String × ℚ)) (v : ℚ) :
    ∀ n, (((pairs.enumFrom n).filter (fun q => decide (q.2.2 = v))).map
        (fun q => q.2.1)) =
      ((pairs.filter (fun p => decide (p.2 = v))).map Prod.fst) := by
  induction pairs with
  | nil => intro n; rfl
  | cons p rest ih =>
    intro n
    simp only [List.enumFrom, List.filter_cons]
    by_cases hv : p.2 = v <;> simp [hv, ih (n + 1)]

/-! ## Claim theorems -/

/-- C1: for every non-empty fusion input with positive k whose method
lists carry distinct chunk ids, the rrf_score of each returned chunk id
equals the sum, over every method whose list contains that id, of
1/(k + rank); in particular a single method with exactly one result
yields exactly 1/(k+1). -/
theorem C1_rrf_score_formula :
    (∀ (rd : List (String × List MethodResult)) (k : ℚ) (top_k : ℕ),
        0 < k → rd ≠ [] → (∀ p ∈ rd, (p.2.filterMap effId).Nodup) →
        ∀ fr ∈ reciprocal_rank_fusion rd k top_k,
          fr.rrf_score = specSum k rd fr.chunk_id) ∧
    (∀ (m : String) (r : MethodResult) (k : ℚ) (top_k : ℕ) (id : String),
        0 < k → 0 < top_k → effId r = some id →
        (reciprocal_rank_fusion [(m, [r])] k top_k).map (fun fr => fr.rrf_score) =
          [1 / (k + 1)]) := by
  constructor
  · intro rd k top_k hk hne hnodup fr hfr
    rw [(rrf_fields hfr).1]
    exact totalContrib_eq_specSum k rd fr.chunk_id hnodup
  · intro m r k top_k id hk htop he
    cases top_k with
    | zero => exact absurd htop (lt_irrefl 0)
    | succ n =>
      simp [reciprocal_rank_fusion, processAll, processList, processResult, he,
        initState, addScore, sortDesc, sortDescBy, insertDescBy, List.foldl,
        buildFused, fusedAt, List.take_succ_cons]

/-- C1 witness: the theorem applied to a one-method, one-result input
with k = 60 and top_k = 10. -/
theorem C1_rrf_score_formula_witness :
    (∀ fr ∈ reciprocal_rank_fusion
        [("bm25", [({ chunk_id := some "X" } : MethodResult)])] 60 10,
        fr.rrf_score =
          specSum 60 [("bm25", [({ chunk_id := some "X" } : MethodResult)])] fr.chunk_id) ∧
    (reciprocal_rank_fusion
        [("bm25", [({ chunk_id := some "X" } : MethodResult)])] 60 10).map
      (fun fr => fr.rrf_score) = [1 / (60 + 1)] := by
  constructor
  · exact C1_rrf_score_formula.1 _ 60 10 (by norm_num) (by simp)
      (by intro p hp; simp at hp; rw [hp]; decide)
  · exact C1_rrf_score_formula.2 "bm25" _ 60 10 "X" (by norm_num) (by norm_num) (by decide)

/-- C3 counterexample: with the same chunk id appearing twice in one
method list, the returned method_ranks and method_scores carry the
second (last) occurrence, not the first, and the accumulated rrf_score
receives both contributions. -/
theorem C3_counterexample_last_wins :
    ((reciprocal_rank_fusion
        [("m", [{ chunk_id := some "X", score := some 1 },
                { chunk_id := some "X", score := some 2 }])] 60 10).map
      (fun fr => (fr.rrf_score, fr.method_ranks, fr.method_scores)) =
      [(1/61 + 1/62, [("m", 2)], [("m", 2)])]) ∧
    ([(("m" : String), (2 : ℕ))] ≠ [("m", 1)]) ∧
    ((1 : ℚ)/61 + 1/62 ≠ 1/61) := by
  refine ⟨by with_unfolding_all rfl, by decide, by norm_num⟩

/-- C3 amended: the call is total (never crashes); every occurrence of a
chunk id contributes 1/(k+rank) to the accumulated score, and for each
method the rank and score of the LAST occurrence are retained. -/
theorem C3_amended_duplicate_handling :
    ∀ (rd : List (String × List MethodResult)) (k : ℚ) (top_k : ℕ),
      ∀ fr ∈ reciprocal_rank_fusion rd k top_k,
        fr.rrf_score = totalContrib k rd fr.chunk_id ∧
        (∀ m, aget fr.method_ranks m = methodLast fr.chunk_id m rd) ∧
        (∀ m, aget fr.method_scores m = methodLastScore fr.chunk_id m rd) :=
  fun _ _ _ _ h => rrf_fields h

/-- C3 witness: the amended theorem applied to the duplicated-id input,
at the single fused result that call returns. -/
theorem C3_amended_duplicate_handling_witness :
    ((1 : ℚ)/61 + 1/62 =
      totalContrib 60
        [("m", [{ chunk_id := some "X", score := some 1 },
                { chunk_id := some "X", score := some 2 }])] "X") ∧
    (∀ m, aget [(("m" : String), (2 : ℕ))] m =
      methodLast "X" m
        [("m", [{ chunk_id := some "X", score := some 1 },
                { chunk_id := some "X", score := some 2 }])]) ∧
    (∀ m, aget [(("m" : String), (2 : ℚ))] m =
      methodLastScore "X" m
        [("m", [{ chunk_id := some "X", score := some 1 },
                { chunk_id := some "X", score := some 2 }])]) := by
  have h : reciprocal_rank_fusion
      [("m", [{ chunk_id := some "X", score := some 1 },
              { chunk_id := some "X", score := some 2 }])] 60 10 =
      [{ doc_id := "X", chunk_id := "X", rrf_score := 1/61 + 1/62, rank := 1,
         text := "", language := "unknown",
         method_scores := [("m", 2)], method_ranks := [("m", 2)] }] := by
    with_unfolding_all rfl
  exact C3_amended_duplicate_handling _ 60 10
    { doc_id := "X", chunk_id := "X", rrf_score := 1/61 + 1/62, rank := 1,
      text := "", language := "unknown",
      method_scores := [("m", 2)], method_ranks := [("m", 2)] }
    (by rw [h]; exact List.mem_cons_self _ _)

/-- C10: the fusion engine derives ranks from enumeration positions and
never reads the stored rank attribute: rewriting every rank attribute
leaves the output unchanged, and a single first-listed result whose rank
attribute is 3 still contributes 1/(k+1) = 1/61 at k = 60. -/
theorem C10_rank_attribute_ignored :
    (∀ (rd : List (String × List MethodResult)) (k : ℚ) (top_k : ℕ)
        (f : MethodResult → Option ℕ),
        reciprocal_rank_fusion (setRankAll f rd) k top_k =
          reciprocal_rank_fusion rd k top_k) ∧
    ((reciprocal_rank_fusion
        [("bm25", [{ doc_id := some "d1", rank := some 3 }])] 60 10).map
      (fun fr => fr.rrf_score) = [1/61]) := by
  constructor
  · intro rd k top_k f
    unfold reciprocal_rank_fusion
    rw [processAll_setRank]
  · with_unfolding_all rfl

/-- C6: empty inputs yield empty outputs rather than errors: fusion of
an empty map or of all-empty lists returns [], and BM25 search returns
[] on an unindexed retriever, an empty indexed corpus, or an empty
tokenized query. -/
theorem C6_empty_inputs_return_empty :
    (∀ (k : ℚ) (top_k : ℕ), reciprocal_rank_fusion [] k top_k = []) ∧
    (∀ (rd : List (String × List MethodResult)) (k : ℚ) (top_k : ℕ),
        (∀ p ∈ rd, p.2 = []) → reciprocal_rank_fusion rd k top_k = []) ∧
    (reciprocal_rank_fusion [("bm25", [])] 60 10 = []) ∧
    (reciprocal_rank_fusion [("bm25", []), ("graph", [])] 60 10 = []) ∧
    (∀ (k1 b : ℚ) (tokenize : String → String → List String)
        (get_scores : List String → List ℚ) (query : String) (top_k : ℕ)
        (language : String) (min_score : ℚ),
        (BM25Retriever.init k1 b).search tokenize get_scores
          query top_k language min_score = []) ∧
    (∀ (r : BM25Retriever) (tokenize : String → String → List String)
        (get_scores : List String → List ℚ) (query : String) (top_k : ℕ)
        (language : String) (min_score : ℚ),
        (r.index_documents []).search tokenize get_scores
          query top_k language min_score = []) ∧
    (∀ (r : BM25Retriever) (tokenize : String → String → List String)
        (get_scores : List String → List ℚ) (query : String) (top_k : ℕ)
        (language : String) (min_score : ℚ),
        tokenize query language = [] →
        r.search tokenize get_scores query top_k language min_score = []) := by
  refine ⟨?_, ?_, rfl, rfl, fun _ _ _ _ _ _ _ _ => rfl, ?_, ?_⟩
  · intro k top_k
    unfold reciprocal_rank_fusion
    simp [processAll, initState, sortDesc, sortDescBy, buildFused]
  · intro rd k top_k h
    unfold reciprocal_rank_fusion
    rw [processAll_empty k rd initState h]
    simp [initState, sortDesc, sortDescBy, buildFused]
  · intro r tokenize get_scores query top_k language min_score
    rfl
  · intro r tokenize get_scores query top_k language min_score h
    unfold BM25Retriever.search
    cases r.bm25 with
    | none => rfl
    | some u =>
      by_cases hd : r.documents = [] <;> simp [hd, h]

/-- C6 witness: the all-empty-lists case at a concrete two-method input
and the empty-tokenization case at a concrete retriever. -/
theorem C6_empty_inputs_return_empty_witness :
    reciprocal_rank_fusion [("bm25", []), ("graph", [])] 60 10 = [] ∧
    ((BM25Retriever.init (3/2) (3/4)).index_documents
        [⟨"d1", "t", some "en"⟩]).search
      (fun _ _ => []) (fun _ => [1]) "q" 10 "en" 0 = [] := by
  constructor
  · exact C6_empty_inputs_return_empty.2.1 [("bm25", []), ("graph", [])] 60 10
      (by intro p hp; simp at hp; rcases hp with h | h <;> rw [h])
  · exact C6_empty_inputs_return_empty.2.2.2.2.2.2 _ _ _ "q" 10 "en" 0 rfl

/-- C5: the fused list is sorted by accumulated RRF score descending,
ties keep first-seen order, the list is truncated to top_k with ranks
renumbered contiguously from 1; in the symmetric two-method example at
k = 60 both chunk ids receive 1/61 + 1/62 and X precedes Y. -/
theorem C5_final_ranking_order :
    (∀ (rd : List (String × List MethodResult)) (k : ℚ) (top_k : ℕ),
      (∀ (i : ℕ) (h : i < (reciprocal_rank_fusion rd k top_k).length),
        ((reciprocal_rank_fusion rd k top_k).get ⟨i, h⟩).rank = i + 1) ∧
      List.Pairwise (fun a b => b.rrf_score ≤ a.rrf_score)
        (reciprocal_rank_fusion rd k top_k) ∧
      (∀ v : ℚ,
        (((reciprocal_rank_fusion rd k top_k).filter
            (fun fr => decide (fr.rrf_score = v))).map (fun fr => fr.chunk_id)).Sublist
          (firstSeenIds rd)) ∧
      (reciprocal_rank_fusion rd k top_k).length =
        min top_k (firstSeenIds rd).length) ∧
    ((reciprocal_rank_fusion
        [("A", [{ chunk_id := some "X" }, { chunk_id := some "Y" }]),
         ("B", [{ chunk_id := some "Y" }, { chunk_id := some "X" }])] 60 10).map
      (fun fr => (fr.chunk_id, fr.rrf_score, fr.rank)) =
      [("X", 1/61 + 1/62, 1), ("Y", 1/61 + 1/62, 2)]) := by
  constructor
  · intro rd k top_k
    have hinv : InfoInv (processAll k initState rd) :=
      infoInv_processAll k rd initState infoInv_init
    have hmap := rrf_eq_map rd k top_k
    refine ⟨?_, ?_, ?_, ?_⟩
    · intro i h
      rw [List.get_eq_getElem]
      have h2 : i < ((((sortDesc (processAll k initState rd).rrf_scores).take
          top_k).enumFrom 1).map
            (fun q => fusedAt (processAll k initState rd) q.2 q.1)).length := by
        rw [← hmap]
        exact h
      rw [show (reciprocal_rank_fusion rd k top_k)[i] =
          ((((sortDesc (processAll k initState rd).rrf_scores).take
            top_k).enumFrom 1).map
              (fun q => fusedAt (processAll k initState rd) q.2 q.1))[i] by
        congr 1]
      rw [List.getElem_map]
      rw [List.getElem_enumFrom]
      exact Nat.add_comm 1 i
    · rw [hmap]
      rw [List.pairwise_map]
      have hp : List.Pairwise (fun a b : String × ℚ => b.2 ≤ a.2)
          ((sortDesc (processAll k initState rd).rrf_scores).take top_k) :=
        List.Pairwise.sublist (List.take_sublist _ _)
          (sortDescBy_pairwise Prod.snd _)
      rw [← List.enumFrom_map_snd 1
        ((sortDesc (processAll k initState rd).rrf_scores).take top_k)] at hp
      rw [List.pairwise_map] at hp
      exact hp
    · intro v
      rw [hmap]
      rw [List.filter_map, List.map_map]
      simp only [Function.comp_def]
      have hfun : ∀ q ∈ (((sortDesc (processAll k initState rd).rrf_scores).take
          top_k).enumFrom 1).filter
            (fun q => decide ((fusedAt (processAll k initState rd) q.2 q.1).rrf_score = v)),
          (fusedAt (processAll k initState rd) q.2 q.1).chunk_id = q.2.1 := by
        intro q _
        exact fusedAt_chunk _ _ _ hinv
      rw [List.map_congr_left hfun]
      have heq : (((sortDesc (processAll k initState rd).rrf_scores).take
          top_k).enumFrom 1).filter
            (fun q => decide ((fusedAt (processAll k initState rd) q.2 q.1).rrf_score = v)) =
          (((sortDesc (processAll k initState rd).rrf_scores).take
          top_k).enumFrom 1).filter (fun q => decide (q.2.2 = v)) := rfl
      rw [heq, enumFrom_filter_snd]
      have h1 : (((sortDesc (processAll k initState rd).rrf_scores).take top_k).filter
          (fun p => decide (p.2 = v))).Sublist
          ((sortDesc (processAll k initState rd).rrf_scores).filter
            (fun p => decide (p.2 = v))) :=
        List.Sublist.filter _ (List.take_sublist _ _)
      have h2 : (sortDesc (processAll k initState rd).rrf_scores).filter
          (fun p => decide (p.2 = v)) =
          (processAll k initState rd).rrf_scores.filter (fun p => decide (p.2 = v)) :=
        sortDescBy_filter Prod.snd _ v
      refine List.Sublist.trans (List.Sublist.map Prod.fst h1) ?_
      rw [h2, ← keys_rrf k rd]
      exact List.Sublist.map Prod.fst (List.filter_sublist _)
    · rw [hmap]
      rw [List.length_map, List.enumFrom_length, List.length_take]
      simp only [sortDesc]
      rw [(sortDescBy_perm Prod.snd (processAll k initState rd).rrf_scores).length_eq]
      rw [show (processAll k initState rd).rrf_scores.length =
          ((processAll k initState rd).rrf_scores.map Prod.fst).length from
        (List.length_map _ _).symm]
      rw [keys_rrf]
  · with_unfolding_all rfl

/-! ## Lemmas: the BM25 search wrapper -/

theorem buildBM25_eq (docs : List Doc) (scores : List ℚ) (language : String)
    (min_score : ℚ) (hl : language ≠ "") :
    ∀ (idxs : List ℕ) (rank : ℕ),
    buildBM25 docs scores language min_score idxs rank =
      (idxs.enumFrom rank).filterMap (fun p =>
        if min_score < scoreAt scores p.2 ∧
            (docAt docs p.2).language.getD "en" = language
        then some (expectedResult docs scores p.2 p.1) else none) := by
  intro idxs
  induction idxs with
  | nil => intro rank; rfl
  | cons idx rest ih =>
    intro rank
    simp only [buildBM25, List.enumFrom, List.filterMap_cons]
    by_cases h1 : min_score < scoreAt scores idx
    · by_cases h2 : (docAt docs idx).language.getD "en" = language
      · have h3 : ¬ (language ≠ "" ∧ (docAt docs idx).language.getD "en" ≠ language) := by
          intro hc
          exact hc.2 h2
        have h4 : min_score < scoreAt scores idx ∧
            (docAt docs idx).language.getD "en" = language := ⟨h1, h2⟩
        rw [if_pos h1, if_neg h3, if_pos h4, ih (rank + 1)]
        rfl
      · have h3 : language ≠ "" ∧ (docAt docs idx).language.getD "en" ≠ language :=
          ⟨hl, h2⟩
        have h4 : ¬ (min_score < scoreAt scores idx ∧
            (docAt docs idx).language.getD "en" = language) := fun hc => h2 hc.2
        rw [if_pos h1, if_pos h3, if_neg h4, ih (rank + 1)]
    · have h4 : ¬ (min_score < scoreAt scores idx ∧
          (docAt docs idx).language.getD "en" = language) := fun hc => h1 hc.1
      rw [if_neg h1, if_neg h4, ih (rank + 1)]

theorem bm25TermScore_mono (idf x y k1 b dl avgdl : ℝ) (hidf : 0 ≤ idf)
    (hk1 : 0 < k1) (hK : 0 < k1 * (1 - b + b * dl / avgdl)) (hx : 0 ≤ x)
    (hxy : x ≤ y) :
    bm25TermScore idf x k1 b dl avgdl ≤ bm25TermScore idf y k1 b dl avgdl := by
  unfold bm25TermScore
  have hxK : 0 < x + k1 * (1 - b + b * dl / avgdl) := by linarith
  have hyK : 0 < y + k1 * (1 - b + b * dl / avgdl) := by linarith
  have hcore : x * (k1 + 1) / (x + k1 * (1 - b + b * dl / avgdl)) ≤
      y * (k1 + 1) / (y + k1 * (1 - b + b * dl / avgdl)) := by
    rw [div_le_div_iff₀ hxK hyK]
    have hKyx : 0 ≤ k1 * (1 - b + b * dl / avgdl) * (y - x) :=
      mul_nonneg (le_of_lt hK) (by linarith)
    have h0 : 0 ≤ (k1 + 1) * (k1 * (1 - b + b * dl / avgdl) * (y - x)) :=
      mul_nonneg (by linarith) hKyx
    nlinarith [h0]
  calc idf * (x * (k1 + 1)) / (x + k1 * (1 - b + b * dl / avgdl)) =
      idf * (x * (k1 + 1) / (x + k1 * (1 - b + b * dl / avgdl))) := by ring
    _ ≤ idf * (y * (k1 + 1) / (y + k1 * (1 - b + b * dl / avgdl))) :=
        mul_le_mul_of_nonneg_left hcore hidf
    _ = idf * (y * (k1 + 1)) / (y + k1 * (1 - b + b * dl / avgdl)) := by ring

theorem bm25K_pos (k1 b dl avgdl : ℝ) (hk1 : 0 < k1) (hb : 0 ≤ b) (hb1 : b ≤ 1)
    (hdl : 0 < dl) (havgdl : 0 < avgdl) :
    0 < k1 * (1 - b + b * dl / avgdl) := by
  have hr : 0 < dl / avgdl := div_pos hdl havgdl
  by_cases hbe : b = 1
  · subst hbe
    simpa using mul_pos hk1 hr
  · have hblt : b < 1 := lt_of_le_of_ne hb1 hbe
    have : 0 < 1 - b + b * (dl / avgdl) := by nlinarith [mul_nonneg hb (le_of_lt hr)]
    calc (0:ℝ) < k1 * (1 - b + b * (dl / avgdl)) := mul_pos hk1 this
      _ = k1 * (1 - b + b * dl / avgdl) := by ring

theorem c5ex_length_pos :
    0 < (reciprocal_rank_fusion
      [("A", [{ chunk_id := some "X" }, { chunk_id := some "Y" }]),
       ("B", [{ chunk_id := some "Y" }, { chunk_id := some "X" }])] 60 10).length := by
  have h : (reciprocal_rank_fusion
      [("A", [{ chunk_id := some "X" }, { chunk_id := some "Y" }]),
       ("B", [{ chunk_id := some "Y" }, { chunk_id := some "X" }])] 60 10).map
        (fun fr => fr.rank) = [1, 2] := by
    with_unfolding_all rfl
  have h2 := congrArg List.length h
  rw [List.length_map] at h2
  simp at h2
  omega

/-- C5 witness: the renumbering conjunct applied at position 0 of the
symmetric two-method example. -/
theorem C5_final_ranking_order_witness :
    ((reciprocal_rank_fusion
      [("A", [{ chunk_id := some "X" }, { chunk_id := some "Y" }]),
       ("B", [{ chunk_id := some "Y" }, { chunk_id := some "X" }])] 60 10).get
        ⟨0, c5ex_length_pos⟩).rank = 0 + 1 :=
  (C5_final_ranking_order.1
    [("A", [{ chunk_id := some "X" }, { chunk_id := some "Y" }]),
     ("B", [{ chunk_id := some "Y" }, { chunk_id := some "X" }])] 60 10).1
    0 c5ex_length_pos

/-- C2: for an indexed non-empty corpus, a truthy requested language and
a non-empty tokenized query, BM25 search returns exactly the entries of
the score-descending stable top-top_k whose score strictly exceeds
min_score and whose document language equals the requested language,
with rank equal to the 1-based pre-filter position (never renumbered);
the argsort is a permutation of all document indices and is sorted by
score descending.  The concrete 5-document corpus (3 en, 1 es, 1 ar)
queried with language es keeps the gap rank 3. -/
theorem BM25search_some (k1v bv : ℚ) (docs : List Doc)
    (tokenize : String → String → List String)
    (get_scores : List String → List ℚ) (query : String) (top_k : ℕ)
    (language : String) (min_score : ℚ) :
    (({ k1 := k1v, b := bv, documents := docs, bm25 := some () } :
        BM25Retriever).search tokenize get_scores query top_k language min_score) =
      (if docs = [] then []
       else if tokenize query language = [] then []
       else buildBM25 docs (get_scores (tokenize query language)) language min_score
         ((argsortDesc (get_scores (tokenize query language))).take top_k) 1) := rfl

theorem C2_bm25_search_language_filter :
    (∀ (k1 b : ℚ) (docs : List Doc) (tokenize : String → String → List String)
        (get_scores : List String → List ℚ) (query : String) (top_k : ℕ)
        (language : String) (min_score : ℚ),
      docs ≠ [] → language ≠ "" → tokenize query language ≠ [] →
      (((BM25Retriever.init k1 b).index_documents docs).search tokenize get_scores
          query top_k language min_score =
        bm25Expected docs (get_scores (tokenize query language)) language
          min_score top_k) ∧
      (argsortDesc (get_scores (tokenize query language))).Perm
        (List.range (get_scores (tokenize query language)).length) ∧
      List.Pairwise
        (fun i j => scoreAt (get_scores (tokenize query language)) j ≤
          scoreAt (get_scores (tokenize query language)) i)
        (argsortDesc (get_scores (tokenize query language)))) ∧
    (((BM25Retriever.init (3/2) (3/4)).index_documents
        [⟨"d1", "t1", some "en"⟩, ⟨"d2", "t2", some "en"⟩, ⟨"d3", "t3", some "es"⟩,
         ⟨"d4", "t4", some "ar"⟩, ⟨"d5", "t5", some "en"⟩]).search
      (fun _ _ => ["q"]) (fun _ => [5, 4, 3, 2, 1]) "consulta" 10 "es" 0 =
      [⟨"d3", 3, 3, "t3", "es"⟩]) := by
  constructor
  · intro k1 b docs tokenize get_scores query top_k language min_score hd hl ht
    refine ⟨?_, sortDescBy_perm _ _, sortDescBy_pairwise _ _⟩
    rw [BM25Retriever.index_documents, if_neg hd]
    rw [BM25search_some]
    rw [if_neg hd, if_neg ht]
    rw [buildBM25_eq docs (get_scores (tokenize query language)) language min_score hl]
    rfl
  · with_unfolding_all rfl

/-- C2 witness: the characterization applied to the 5-document corpus
with the es query, discharging the three non-emptiness hypotheses. -/
theorem C2_bm25_search_language_filter_witness :
    (((BM25Retriever.init (3/2) (3/4)).index_documents
        [⟨"d1", "t1", some "en"⟩, ⟨"d2", "t2", some "en"⟩, ⟨"d3", "t3", some "es"⟩,
         ⟨"d4", "t4", some "ar"⟩, ⟨"d5", "t5", some "en"⟩]).search
      (fun _ _ => ["q"]) (fun _ => [5, 4, 3, 2, 1]) "consulta" 10 "es" 0 =
      bm25Expected
        [⟨"d1", "t1", some "en"⟩, ⟨"d2", "t2", some "en"⟩, ⟨"d3", "t3", some "es"⟩,
         ⟨"d4", "t4", some "ar"⟩, ⟨"d5", "t5", some "en"⟩]
        [5, 4, 3, 2, 1] "es" 0 10) ∧
    (argsortDesc [5, 4, 3, 2, 1]).Perm (List.range ([5, 4, 3, 2, 1] : List ℚ).length) := by
  have h := (C2_bm25_search_language_filter.1 (3/2) (3/4)
    [⟨"d1", "t1", some "en"⟩, ⟨"d2", "t2", some "en"⟩, ⟨"d3", "t3", some "es"⟩,
     ⟨"d4", "t4", some "ar"⟩, ⟨"d5", "t5", some "en"⟩]
    (fun _ _ => ["q"]) (fun _ => [5, 4, 3, 2, 1]) "consulta" 10 "es" 0
    (by simp) (by simp) (by simp))
  exact ⟨h.1, h.2.1⟩

/-- C4 counterexample: with the Robertson-Sparck-Jones IDF of a
single-document corpus whose term occurs in that document, the IDF is
negative and raising the term frequency from 1 to 2 with the length
fixed strictly decreases the term score. -/
theorem C4_counterexample_negative_idf :
    bm25IDF 1 1 < 0 ∧
    bm25TermScore (bm25IDF 1 1) 2 (3/2) (3/4) 10 10 <
      bm25TermScore (bm25IDF 1 1) 1 (3/2) (3/4) 10 10 := by
  have hneg : bm25IDF 1 1 < 0 := by
    unfold bm25IDF
    rw [show ((1:ℝ) - 1 + 1/2) / (1 + 1/2) = 1/3 by norm_num]
    exact Real.log_neg (by norm_num) (by norm_num)
  refine ⟨hneg, ?_⟩
  have h2 : bm25TermScore (bm25IDF 1 1) 2 (3/2) (3/4) 10 10 =
      bm25IDF 1 1 * (10/7) := by
    unfold bm25TermScore
    norm_num
    ring
  have h1 : bm25TermScore (bm25IDF 1 1) 1 (3/2) (3/4) 10 10 = bm25IDF 1 1 := by
    unfold bm25TermScore
    norm_num
  rw [h1, h2]
  nlinarith [hneg]

/-- C4 amended: BM25 term-frequency monotonicity holds for terms with
non-negative IDF: raising the frequency of one query term while fixing
the document length (and the other term frequencies) never decreases the
document score. -/
theorem C4_amended_monotonic_for_nonneg_idf :
    ∀ (idf tf tf2 : String → ℝ) (k1 b dl avgdl : ℝ) (q : List String) (t : String),
      0 < k1 → 0 ≤ b → b ≤ 1 → 0 < dl → 0 < avgdl →
      (∀ s, 0 ≤ tf s) → 0 ≤ idf t → tf t ≤ tf2 t →
      (∀ s, s ≠ t → tf2 s = tf s) →
      bm25DocScore idf tf k1 b dl avgdl q ≤ bm25DocScore idf tf2 k1 b dl avgdl q := by
  intro idf tf tf2 k1 b dl avgdl q t hk1 hb hb1 hdl havg htf hidf htt hother
  unfold bm25DocScore
  refine List.sum_le_sum ?_
  intro s hs
  by_cases hst : s = t
  · subst hst
    exact bm25TermScore_mono (idf s) (tf s) (tf2 s) k1 b dl avgdl hidf hk1
      (bm25K_pos k1 b dl avgdl hk1 hb hb1 hdl havg) (htf s) htt
  · rw [hother s hst]

/-- C4 witness: the amended monotonicity applied to a one-term query
with IDF 1, frequency raised from 1 to 2, k1 = 3/2, b = 3/4 and document
length equal to the average length 10. -/
theorem C4_amended_monotonic_for_nonneg_idf_witness :
    bm25DocScore (fun _ => 1) (fun _ => 1) (3/2) (3/4) 10 10 ["t"] ≤
      bm25DocScore (fun _ => 1) (fun s => if s = "t" then 2 else 1)
        (3/2) (3/4) 10 10 ["t"] :=
  C4_amended_monotonic_for_nonneg_idf (fun _ => 1) (fun _ => 1)
    (fun s => if s = "t" then 2 else 1) (3/2) (3/4) 10 10 ["t"] "t"
    (by norm_num) (by norm_num) (by norm_num) (by norm_num) (by norm_num)
    (fun s => by norm_num) (by norm_num) (by norm_num)
    (fun s hs => by simp [hs])

/-- C7: generate_entity_id is deterministic, case-insensitive in the
name, and separates languages: the id of (Apple Inc, en) equals that of
(apple inc, en) and differs from that of (Apple Inc, es). -/
theorem C7_entity_id_stability :
    (∀ (n1 n2 l1 l2 : String), n1 = n2 → l1 = l2 →
        generate_entity_id n1 l1 = generate_entity_id n2 l2) ∧
    (∀ (n1 n2 l : String), pyLower n1 = pyLower n2 →
        generate_entity_id n1 l = generate_entity_id n2 l) ∧
    (generate_entity_id "Apple Inc" "en" = generate_entity_id "apple inc" "en") ∧
    (generate_entity_id "Apple Inc" "en" ≠ generate_entity_id "Apple Inc" "es") := by
  refine ⟨?_, ?_, by decide, by decide⟩
  · intro n1 n2 l1 l2 h1 h2
    rw [h1, h2]
  · intro n1 n2 l h
    unfold generate_entity_id
    rw [h]

/-- C7 witness: determinism and case-insensitivity applied at the
concrete Apple Inc inputs. -/
theorem C7_entity_id_stability_witness :
    generate_entity_id "Apple Inc" "en" = generate_entity_id "Apple Inc" "en" ∧
    generate_entity_id "Apple Inc" "en" = generate_entity_id "APPLE INC" "en" :=
  ⟨C7_entity_id_stability.1 "Apple Inc" "Apple Inc" "en" "en" rfl rfl,
   C7_entity_id_stability.2.1 "Apple Inc" "APPLE INC" "en" (by decide)⟩

/-- C8: when query entity extraction yields nothing, or every extracted
entity matches no stored entity, graph search returns the empty list,
and the result does not depend on the chunk-retrieval collaborator at
all (it is never consulted). -/
theorem C8_graph_search_abstains :
    ∀ (extract_entities : String → String → List ExtractedEntity)
      (find_entities_by_name : String → String → ℕ → List EntityMatch)
      (find_chunks_by_entities : List String → ℕ → List GraphChunk)
      (query : String) (top_k : ℕ) (language : String),
      (extract_entities query language = [] ∨
        ∀ e ∈ extract_entities query language,
          find_entities_by_name e.name language 3 = []) →
      GraphRetriever.search extract_entities find_entities_by_name
        find_chunks_by_entities query top_k language = [] ∧
      (∀ (fc2 : List String → ℕ → List GraphChunk),
        GraphRetriever.search extract_entities find_entities_by_name fc2
          query top_k language =
        GraphRetriever.search extract_entities find_entities_by_name
          find_chunks_by_entities query top_k language) := by
  intro ex fe fc query top_k language h
  have key : ∀ (fc2 : List String → ℕ → List GraphChunk),
      GraphRetriever.search ex fe fc2 query top_k language = [] := by
    intro fc2
    unfold GraphRetriever.search
    rcases h with h | h
    · simp [h]
    · by_cases hq : ex query language = []
      · simp [hq]
      · have hids : (ex query language).flatMap
            (fun e => (fe e.name language 3).map (fun m => m.id)) = [] := by
          rw [List.flatMap_eq_nil_iff]
          intro e he
          rw [h e he]
          rfl
        simp [hq, hids]
  exact ⟨key fc, fun fc2 => by rw [key fc2, key fc]⟩

/-- C8 witness: the abstention applied to an extractor returning no
entities, with a chunk collaborator that would return a chunk if it were
consulted. -/
theorem C8_graph_search_abstains_witness :
    GraphRetriever.search (fun _ _ => []) (fun _ _ _ => [])
      (fun _ _ => [⟨"c1", some "d1", 1, "t", some "en"⟩]) "q" 10 "en" = [] ∧
    (∀ (fc2 : List String → ℕ → List GraphChunk),
      GraphRetriever.search (fun _ _ => []) (fun _ _ _ => []) fc2 "q" 10 "en" =
      GraphRetriever.search (fun _ _ => []) (fun _ _ _ => [])
        (fun _ _ => [⟨"c1", some "d1", 1, "t", some "en"⟩]) "q" 10 "en") :=
  C8_graph_search_abstains (fun _ _ => []) (fun _ _ _ => [])
    (fun _ _ => [⟨"c1", some "d1", 1, "t", some "en"⟩]) "q" 10 "en" (Or.inl rfl)

/-- C9 counterexample: a requested bm25 retriever that raises at runtime
aborts the whole query with an error even though dense returned results;
the same request without bm25 succeeds.  So a throwing bm25 is not
skipped. -/
theorem C9_counterexample_bm25_aborts :
    (hybrid_search
        ⟨some SearchOutcome.failure,
         some (SearchOutcome.ok [{ chunk_id := some "c" }]), none⟩
        ⟨"q", ["bm25", "dense"], 10, 60, "en"⟩ =
      Except.error "bm25 search raised") ∧
    (exceptOk (hybrid_search
        ⟨some SearchOutcome.failure,
         some (SearchOutcome.ok [{ chunk_id := some "c" }]), none⟩
        ⟨"q", ["dense"], 10, 60, "en"⟩) = true) := by
  exact ⟨rfl, rfl⟩

/-- C9 amended: dense and graph retrievers that are unavailable or raise
are skipped; an unavailable bm25 is skipped, but a bm25 runtime failure
aborts the query; when every collected list is empty the orchestrator
raises its explicit error, and when at least one collected list is
non-empty it fuses the collected lists. -/
theorem C9_amended_orchestrator_errors :
    (∀ (st : AppState) (req : QueryRequest),
        st.dense_retriever = some SearchOutcome.failure →
        hybrid_search st req =
          hybrid_search { st with dense_retriever := none } req) ∧
    (∀ (st : AppState) (req : QueryRequest),
        st.graph_retriever = some SearchOutcome.failure →
        hybrid_search st req =
          hybrid_search { st with graph_retriever := none } req) ∧
    (∀ (st : AppState) (req : QueryRequest),
        "bm25" ∈ req.retrieval_methods →
        st.bm25_retriever = some SearchOutcome.failure →
        hybrid_search st req = Except.error "bm25 search raised") ∧
    (∀ (st : AppState) (req : QueryRequest) (d : List (String × List MethodResult)),
        collectMethods st req = Except.ok d →
        ((∀ p ∈ d, p.2 = []) →
          hybrid_search st req =
            Except.error "No documents indexed. Please ingest data before querying.") ∧
        ((∃ p ∈ d, p.2 ≠ []) →
          hybrid_search st req =
            Except.ok ⟨reciprocal_rank_fusion d req.rrf_k req.top_k,
              d.map Prod.fst⟩)) := by
  refine ⟨?_, ?_, ?_, ?_⟩
  · intro st req h
    simp [hybrid_search, collectMethods, h]
  · intro st req h
    simp [hybrid_search, collectMethods, h]
  · intro st req h1 h2
    simp [hybrid_search, collectMethods, h1, h2]
  · intro st req d hc
    have hiff : ((d.filter (fun p => !p.2.isEmpty)).isEmpty = true) ↔
        ∀ p ∈ d, p.2 = [] := by
      rw [List.isEmpty_iff, List.filter_eq_nil_iff]
      constructor
      · intro h p hp
        have h2 := h p hp
        simpa [List.isEmpty_iff] using h2
      · intro h p hp
        simp [h p hp]
    constructor
    · intro h
      unfold hybrid_search
      rw [hc]
      exact if_pos (hiff.mpr h)
    · rintro ⟨p, hp, hne⟩
      unfold hybrid_search
      rw [hc]
      exact if_neg (fun hcon => hne (hiff.mp hcon p hp))

/-- C9 witness: the bm25-abort conjunct and the zero-results error
conjunct at concrete states. -/
theorem C9_amended_orchestrator_errors_witness :
    hybrid_search ⟨some SearchOutcome.failure, none, none⟩
        ⟨"q", ["bm25"], 10, 60, "en"⟩ =
      Except.error "bm25 search raised" ∧
    hybrid_search ⟨none, none, none⟩ ⟨"q", ["bm25"], 10, 60, "en"⟩ =
      Except.error "No documents indexed. Please ingest data before querying." := by
  constructor
  · exact C9_amended_orchestrator_errors.2.2.1 _ _ (by simp) rfl
  · exact (C9_amended_orchestrator_errors.2.2.2 ⟨none, none, none⟩
      ⟨"q", ["bm25"], 10, 60, "en"⟩ [] rfl).1 (by intro p hp; cases hp)

/-! ## MD5 embedding validation against standard test vectors -/

/-- The MD5 embedding agrees with the standard digest of the empty
message. -/
theorem md5Hex_empty_vector :
    md5Hex (strBytes "") = "d41d8cd98f00b204e9800998ecf8427e" := by decide

/-- The MD5 embedding agrees with the standard digest of abc. -/
theorem md5Hex_abc_vector :
    md5Hex (strBytes "abc") = "900150983cd24fb0d6963f7d28e17f72" := by decide
